import Mathlib

/-!
Verification development for the Entel call-center transcript backend.

The definitions below are shallow embeddings of the Python sources under
`backend/`:

* `backend/utils/text_cleaner.py` — PII sanitisation (`sanitize_pii`,
  `clean_transcript`) and snippet extraction (`get_snippet`).  The Python
  `re` substitutions are hand-compiled into deterministic backtracking
  matchers over `List Char`, with Python's leftmost-match / greedy /
  word-boundary semantics.  Python's `\w`, `\s`, `\d`, `.lower()` and
  `.upper()` are modelled over the alphabet the repository actually uses:
  ASCII plus the Spanish accented letters appearing in the source regexes.
* `backend/services/search_service.py` — semantic scan and hybrid fusion.
* `backend/services/embedding_service.py` — cosine similarity and the
  embedding cache accessor.
* `backend/services/langchain_service.py` — the batch embedding path.
* `backend/utils/rate_limiter.py` — the sliding-window rate limiter.

Floats are modelled as real numbers (for similarity scores) or rationals
(for timestamps and token counts); database sessions, logging and sleeping
are modelled by explicit state passing / event lists, and the external
embedding provider by an oracle parameter.
-/

namespace Entel

/-! ### Character model -/

/-- The Spanish lowercase accented letters used by the name regexes. -/
def spanishLower : List Char := ['á', 'é', 'í', 'ó', 'ú', 'ñ']

/-- The Spanish uppercase accented letters used by the name regexes. -/
def spanishUpper : List Char := ['Á', 'É', 'Í', 'Ó', 'Ú', 'Ñ']

/-- Python `str.lower()` restricted to the repository's alphabet. -/
def lowerX (c : Char) : Char :=
  if c = 'Á' then 'á' else if c = 'É' then 'é' else if c = 'Í' then 'í'
  else if c = 'Ó' then 'ó' else if c = 'Ú' then 'ú' else if c = 'Ñ' then 'ñ'
  else c.toLower

/-- Python `str.upper()` restricted to the repository's alphabet. -/
def upperX (c : Char) : Char :=
  if c = 'á' then 'Á' else if c = 'é' then 'É' else if c = 'í' then 'Í'
  else if c = 'ó' then 'Ó' else if c = 'ú' then 'Ú' else if c = 'ñ' then 'Ñ'
  else c.toUpper

/-- ASCII lowercase letter `a`-`z`. -/
def isAsciiLowerC (c : Char) : Bool := 'a' ≤ c && c ≤ 'z'

/-- ASCII uppercase letter `A`-`Z`. -/
def isAsciiUpperC (c : Char) : Bool := 'A' ≤ c && c ≤ 'Z'

/-- Decimal digit, Python regex `\d`. -/
def isDigitC (c : Char) : Bool := c.isDigit

/-- Python regex `\w` over the repository's alphabet. -/
def isWordC (c : Char) : Bool :=
  isAsciiLowerC c || isAsciiUpperC c || isDigitC c || c = '_' ||
    spanishLower.contains c || spanishUpper.contains c

/-- Python regex `\s` (whitespace). -/
def isSpaceC (c : Char) : Bool :=
  c = ' ' || c = '\t' || c = '\n' || c = '\x0d' || c = '\x0b' || c = '\x0c'

/-- Whether an optional character counts as a word character (`none` is the
edge of the string and counts as non-word). -/
def isWordO : Option Char → Bool
  | none => false
  | some c => isWordC c

/-- Python regex word boundary `\b` between two adjacent positions:
exactly one side is a word character. -/
def wordB (a b : Option Char) : Bool := isWordO a != isWordO b

/-! ### Basic list-of-char utilities shared by the embedding -/

/-- `listStartsWith n h`: `n` is a prefix of `h`. -/
def listStartsWith : List Char → List Char → Bool
  | [], _ => true
  | _ :: _, [] => false
  | a :: as, b :: bs => a = b && listStartsWith as bs

/-- Python `needle in hay` substring test. -/
def containsSub (needle hay : List Char) : Bool :=
  match hay with
  | [] => listStartsWith needle []
  | _ :: rest => listStartsWith needle hay || containsSub needle rest

/-- Python `hay.find(needle)`: index of the first occurrence, `none` when
absent; the empty needle matches at index `0`. -/
def findSub (needle hay : List Char) : Option Nat :=
  match hay with
  | [] => if listStartsWith needle [] then some 0 else none
  | _ :: rest =>
    if listStartsWith needle hay then some 0
    else (findSub needle rest).map (· + 1)

/-- Python `str.strip()`. -/
def stripL (cs : List Char) : List Char :=
  ((cs.dropWhile (fun c => isSpaceC c)).reverse.dropWhile
    (fun c => isSpaceC c)).reverse

/-- Helper for `splitWs`: `acc` holds the current word, reversed. -/
def splitWsAux : List Char → List Char → List (List Char)
  | [], acc => if acc.isEmpty then [] else [acc.reverse]
  | c :: rest, acc =>
    if isSpaceC c then
      if acc.isEmpty then splitWsAux rest []
      else acc.reverse :: splitWsAux rest []
    else splitWsAux rest (c :: acc)

/-- Python `str.split()` with no argument: split on whitespace runs,
discarding empty fields. -/
def splitWs (cs : List Char) : List (List Char) :=
  splitWsAux cs []

/-! ### Regex combinators

The PII regexes of `text_cleaner.py` are hand-compiled into deterministic
matchers with Python `re` semantics: leftmost match, greedy quantifiers
with backtracking (longest repetition tried first), word boundaries `\b`.
A matcher receives the character preceding the current position (for `\b`)
and the remaining text, and returns the text after the match on success. -/

/-- Greedy `p+` followed by `cont`: longest repetition tried first,
backtracking into shorter ones (Python `re` semantics). -/
def greedyBt (p : Char → Bool) (cont : List Char → Option (List Char)) :
    List Char → Option (List Char)
  | [] => none
  | c :: cs =>
    if p c then
      match greedyBt p cont cs with
      | some r => some r
      | none => cont cs
    else none

/-- Greedy `p*` followed by `cont`: longest first, down to zero. -/
def greedyBtStar (p : Char → Bool) (cont : List Char → Option (List Char)) :
    List Char → Option (List Char)
  | [] => cont []
  | c :: cs =>
    if p c then
      match greedyBtStar p cont cs with
      | some r => some r
      | none => cont (c :: cs)
    else cont (c :: cs)

/-- Exactly `k` characters satisfying `p`. -/
def dropExact (p : Char → Bool) : Nat → List Char → Option (List Char)
  | 0, cs => some cs
  | _ + 1, [] => none
  | k + 1, c :: cs => if p c then dropExact p k cs else none

/-- Literal character. -/
def lit1 (x : Char) : List Char → Option (List Char)
  | [] => none
  | c :: cs => if c = x then some cs else none

/-- Case-sensitive literal string. -/
def litStr : List Char → List Char → Option (List Char)
  | [], cs => some cs
  | _ :: _, [] => none
  | x :: xs, c :: cs => if c = x then litStr xs cs else none

/-- Case-insensitive literal string (`re.IGNORECASE`); the pattern `xs`
is written in lowercase. -/
def litStrCI : List Char → List Char → Option (List Char)
  | [], cs => some cs
  | _ :: _, [] => none
  | x :: xs, c :: cs => if lowerX c = x then litStrCI xs cs else none

/-- Bounded repetition `p{lo,hi}` followed by `cont`: `k = hi` tried
first, backtracking down to `k = lo`. -/
def boundedBt (p : Char → Bool) (lo : Nat) :
    Nat → (List Char → Option (List Char)) → List Char → Option (List Char)
  | 0, cont, cs =>
    if 0 < lo then none
    else
      match dropExact p 0 cs with
      | some r => cont r
      | none => none
  | hi + 1, cont, cs =>
    if hi + 1 < lo then none
    else
      match dropExact p (hi + 1) cs with
      | some r =>
        (match cont r with
         | some r2 => some r2
         | none => boundedBt p lo hi cont cs)
      | none => boundedBt p lo hi cont cs

/-- Alternation `(a₁|a₂|…)` of case-insensitive literals followed by
`cont`, alternatives tried in order with backtracking. -/
def tryAlternatives (alts : List (List Char))
    (cont : List Char → Option (List Char)) (cs : List Char) :
    Option (List Char) :=
  match alts with
  | [] => none
  | a :: rest =>
    match (litStrCI a cs).bind cont with
    | some r => some r
    | none => tryAlternatives rest cont cs

/-- Greedy iteration `(?:…)*` of a step at the end of a pattern (nothing
follows, so no backtracking over the iteration count is needed); `fuel`
bounds the recursion and is instantiated with the text length (every step
consumes at least one character). -/
def chainIter (step : List Char → Option (List Char)) : Nat → List Char → List Char
  | 0, cs => cs
  | f + 1, cs =>
    match step cs with
    | some r => if r.length < cs.length then chainIter step f r else cs
    | none => cs

/-- Word boundary `\b` between `prev` and the head of `cs`. -/
def bAt (prev : Option Char) (cs : List Char) : Bool := wordB prev cs.head?

/-- Fuel-bounded core of `runSubF` (structural recursion on the fuel so
that the kernel can evaluate it; the fuel is instantiated with the text
length, which suffices because every step consumes at least one
character). -/
def runSubFAux (m : Option Char → List Char → Option (List Char))
    (repl : List Char → List Char) :
    Nat → Option Char → List Char → List Char
  | 0, _, cs => cs
  | _ + 1, _, [] => []
  | f + 1, prev, c :: cs =>
    match m prev (c :: cs) with
    | some rest =>
      if rest.length < (c :: cs).length then
        let matched := (c :: cs).take ((c :: cs).length - rest.length)
        repl matched ++ runSubFAux m repl f matched.getLast? rest
      else c :: runSubFAux m repl f (some c) cs
    | none => c :: runSubFAux m repl f (some c) cs

/-- One pass of Python `re.sub`: scan left to right; at each position try
the matcher `m`; on a match emit `repl` applied to the matched span and
continue scanning after the match (the last matched character becomes the
`\b` context), else keep the character and advance. -/
def runSubF (m : Option Char → List Char → Option (List Char))
    (repl : List Char → List Char) (prev : Option Char) (cs : List Char) :
    List Char :=
  runSubFAux m repl cs.length prev cs

/-! ### The PII patterns of `text_cleaner.py` -/

/-- `RUT_REGEXES[0] = \b\d{1,3}\.\d{3}\.\d{3}-[\dkK]\b`. -/
def tryRut1 (prev : Option Char) (cs : List Char) : Option (List Char) :=
  if bAt prev cs then
    boundedBt isDigitC 1 3
      (fun r1 => (lit1 '.' r1).bind fun r2 =>
        (dropExact isDigitC 3 r2).bind fun r3 =>
        (lit1 '.' r3).bind fun r4 =>
        (dropExact isDigitC 3 r4).bind fun r5 =>
        (lit1 '-' r5).bind fun r6 =>
        match r6 with
        | c :: r7 =>
          if (isDigitC c || c = 'k' || c = 'K') && !isWordO r7.head? then some r7
          else none
        | [] => none) cs
  else none

/-- `RUT_REGEXES[1] = \b\d{1,2}\.\d{3}\.\d{3}-[\dkK]\b`. -/
def tryRut2 (prev : Option Char) (cs : List Char) : Option (List Char) :=
  if bAt prev cs then
    boundedBt isDigitC 1 2
      (fun r1 => (lit1 '.' r1).bind fun r2 =>
        (dropExact isDigitC 3 r2).bind fun r3 =>
        (lit1 '.' r3).bind fun r4 =>
        (dropExact isDigitC 3 r4).bind fun r5 =>
        (lit1 '-' r5).bind fun r6 =>
        match r6 with
        | c :: r7 =>
          if (isDigitC c || c = 'k' || c = 'K') && !isWordO r7.head? then some r7
          else none
        | [] => none) cs
  else none

/-- `RUT_REGEXES[2] = \b\d{1,3}-\d{3}-\d{3}-\d\b`. -/
def tryRut3 (prev : Option Char) (cs : List Char) : Option (List Char) :=
  if bAt prev cs then
    boundedBt isDigitC 1 3
      (fun r1 => (lit1 '-' r1).bind fun r2 =>
        (dropExact isDigitC 3 r2).bind fun r3 =>
        (lit1 '-' r3).bind fun r4 =>
        (dropExact isDigitC 3 r4).bind fun r5 =>
        (lit1 '-' r5).bind fun r6 =>
        match r6 with
        | c :: r7 => if isDigitC c && !isWordO r7.head? then some r7 else none
        | [] => none) cs
  else none

/-- Character class `[\w\.-]` of `EMAIL_REGEX`. -/
def emailC (c : Char) : Bool := isWordC c || c = '.' || c = '-'

/-- Tail `\.\w+\b` of `EMAIL_REGEX` (after `\w+` consumes greedily, the
following character is non-word, so the trailing `\b` holds exactly when
the next character is non-word or the string ends). -/
def emailEnd (cs : List Char) : Option (List Char) :=
  (lit1 '.' cs).bind
    (greedyBt isWordC fun r => if isWordO r.head? then none else some r)

/-- `EMAIL_REGEX = \b[\w\.-]+@[\w\.-]+\.\w+\b`. -/
def tryEmail (prev : Option Char) (cs : List Char) : Option (List Char) :=
  match cs with
  | [] => none
  | c :: _ =>
    if emailC c && wordB prev (some c) then
      greedyBt emailC
        (fun r1 => (lit1 '@' r1).bind (greedyBt emailC emailEnd)) cs
    else none

/-- Character class `[\d\s\-]` of `PHONE_REGEX`. -/
def phoneMid (c : Char) : Bool := isDigitC c || isSpaceC c || c = '-'

/-- Tail `\d[\d\s\-]{7,}\d\b` of `PHONE_REGEX`. -/
def phoneTail (cs : List Char) : Option (List Char) :=
  match cs with
  | [] => none
  | c :: rest =>
    if isDigitC c then
      (dropExact phoneMid 7 rest).bind
        (greedyBtStar phoneMid fun r =>
          match r with
          | d :: r2 =>
            if isDigitC d && !isWordO r2.head? then some r2 else none
          | [] => none)
    else none

/-- `PHONE_REGEX = \b(?:\+?\d[\d\s\-]{7,}\d)\b`: the optional `+` is taken
when present (the without-`+` branch then needs a digit at the `+` and
fails); the leading `\b` sits before the optional `+`. -/
def tryPhone (prev : Option Char) (cs : List Char) : Option (List Char) :=
  match cs with
  | [] => none
  | c :: rest =>
    if c = '+' then
      if wordB prev (some '+') then phoneTail rest else none
    else if isDigitC c then
      if wordB prev (some c) then phoneTail cs else none
    else none

/-- Character class `[^\n,]` of `ADDRESS_REGEX`. -/
def addrC (c : Char) : Bool := !(c = '\n' || c = ',')

/-- Tail `\s+[^\n,]+` of `ADDRESS_REGEX`. -/
def addrTail (cs : List Char) : Option (List Char) :=
  greedyBt isSpaceC (greedyBt addrC fun r2 => some r2) cs

/-- One keyword alternative of `ADDRESS_REGEX`; `opt` marks the keywords
`av\.?` and `pje\.?` with an optional trailing dot (greedy: with-dot tried
first). -/
def kwBranch (kw : List Char) (opt : Bool) (cs : List Char) : Option (List Char) :=
  (litStrCI kw cs).bind fun r =>
    if opt then
      match r with
      | '.' :: r2 =>
        (match addrTail r2 with
         | some x => some x
         | none => addrTail r)
      | _ => addrTail r
    else addrTail r

/-- `ADDRESS_REGEX = \b(?:(calle|avenida|av\.?|pasaje|pje\.?)\s+[^\n,]+)`,
applied with `re.IGNORECASE`; alternatives tried in source order. -/
def tryAddress (prev : Option Char) (cs : List Char) : Option (List Char) :=
  match cs with
  | [] => none
  | c :: _ =>
    if wordB prev (some c) then
      match kwBranch "calle".data false cs with
      | some r => some r
      | none =>
        match kwBranch "avenida".data false cs with
        | some r => some r
        | none =>
          match kwBranch "av".data true cs with
          | some r => some r
          | none =>
            match kwBranch "pasaje".data false cs with
            | some r => some r
            | none => kwBranch "pje".data true cs
    else none

/-! ### Name patterns (`NAME_PATTERNS` and `_replace_names`) -/

/-- Any letter of the repository's alphabet.  Under `re.IGNORECASE` both
classes `[A-ZÁÉÍÓÚÑ]` and `[a-záéíóúñ]` match exactly these characters. -/
def nameLetter (c : Char) : Bool :=
  isAsciiLowerC c || isAsciiUpperC c ||
    spanishLower.contains c || spanishUpper.contains c

/-- Class `[A-ZÁÉÍÓÚÑ]` without `IGNORECASE` (inner replacement regex). -/
def upperNameLetter (c : Char) : Bool :=
  isAsciiUpperC c || spanishUpper.contains c

/-- Class `[a-záéíóúñ]` without `IGNORECASE` (inner replacement regex). -/
def lowerNameLetter (c : Char) : Bool :=
  isAsciiLowerC c || spanishLower.contains c

/-- One name word `[A-ZÁÉÍÓÚÑ][a-záéíóúñ]+` under `IGNORECASE` (at least
two letters). -/
def nameWord (cs : List Char) : Option (List Char) :=
  match cs with
  | [] => none
  | c :: rest =>
    if nameLetter c then greedyBt nameLetter (fun r => some r) rest else none

/-- Chain step `\s+[A-ZÁÉÍÓÚÑ][a-záéíóúñ]+` under `IGNORECASE`. -/
def nameChainStep (cs : List Char) : Option (List Char) :=
  greedyBt isSpaceC nameWord cs

/-- An outer name pattern: `\b` + cue literal (`IGNORECASE`) + `\s+` +
name word + (for the cues `soy`, `mi nombre es`, `me llamo`) a greedy
chain `(?:\s+word)*`. -/
def tryName (cue : List Char) (chain : Bool) (prev : Option Char)
    (cs : List Char) : Option (List Char) :=
  match cs with
  | [] => none
  | c :: _ =>
    if wordB prev (some c) then
      (litStrCI cue cs).bind fun r =>
        greedyBt isSpaceC
          (fun r2 =>
            (nameWord r2).map fun r3 =>
              if chain then chainIter nameChainStep r3.length r3 else r3) r
    else none

/-- Inner chain step `\s+[A-ZÁÉÍÓÚÑ][a-záéíóúñ]+` (case-sensitive). -/
def innerChainStep (cs : List Char) : Option (List Char) :=
  greedyBt isSpaceC
    (fun r =>
      match r with
      | c :: rest =>
        if upperNameLetter c then greedyBt lowerNameLetter (fun x => some x) rest
        else none
      | [] => none) cs

/-- The inner replacement regex of `_replace_names`:
`[A-ZÁÉÍÓÚÑ][a-záéíóúñ]+(?:\s+[A-ZÁÉÍÓÚÑ][a-záéíóúñ]+)*`, case-sensitive,
no word boundaries. -/
def innerNameMatcher (_prev : Option Char) (cs : List Char) : Option (List Char) :=
  match cs with
  | [] => none
  | c :: rest =>
    if upperNameLetter c then
      greedyBt lowerNameLetter
        (fun r => some (chainIter innerChainStep r.length r)) rest
    else none

/-- The replacement of `_replace_names`: the matched cue text with each
capitalized name span replaced by `<PERSON>`. -/
def innerNameSub (matched : List Char) : List Char :=
  runSubF innerNameMatcher (fun _ => "<PERSON>".data) none matched

/-- `_replace_names`: the seven `NAME_PATTERNS` substitutions in source
order, each replacing the match by its inner `<PERSON>` substitution. -/
def replace_names (text : List Char) : List Char :=
  let t := runSubF (tryName "soy".data true) innerNameSub none text
  let t := runSubF (tryName "mi nombre es".data true) innerNameSub none t
  let t := runSubF (tryName "le atiende".data false) innerNameSub none t
  let t := runSubF (tryName "saluda".data false) innerNameSub none t
  let t := runSubF (tryName "le habla".data false) innerNameSub none t
  let t := runSubF (tryName "habla".data false) innerNameSub none t
  runSubF (tryName "me llamo".data true) innerNameSub none t

/-! ### Date and number patterns -/

/-- The month alternation of `DATE_REGEXES[0]`, in source order. -/
def monthsList : List (List Char) :=
  ["enero", "febrero", "marzo", "abril", "mayo", "junio", "julio",
   "agosto", "septiembre", "octubre", "noviembre", "diciembre"].map String.data

/-- `DATE_REGEXES[0] =
`\b\d{1,2}\s+de\s+(month…)\s+de\s+\d{4}\b` with `re.IGNORECASE`. -/
def tryDate1 (prev : Option Char) (cs : List Char) : Option (List Char) :=
  if bAt prev cs then
    boundedBt isDigitC 1 2
      (greedyBt isSpaceC fun r2 =>
        (litStrCI "de".data r2).bind <|
          greedyBt isSpaceC fun r3 =>
            tryAlternatives monthsList
              (greedyBt isSpaceC fun r5 =>
                (litStrCI "de".data r5).bind <|
                  greedyBt isSpaceC fun r6 =>
                    (dropExact isDigitC 4 r6).bind fun r7 =>
                      if isWordO r7.head? then none else some r7) r3) cs
  else none

/-- `DATE_REGEXES[1] = \b\d{1,2}/\d{1,2}/\d{2,4}\b`. -/
def tryDate2 (prev : Option Char) (cs : List Char) : Option (List Char) :=
  if bAt prev cs then
    boundedBt isDigitC 1 2
      (fun r1 => (lit1 '/' r1).bind <|
        boundedBt isDigitC 1 2 fun r2 =>
          (lit1 '/' r2).bind <|
            boundedBt isDigitC 2 4 fun r3 =>
              if isWordO r3.head? then none else some r3) cs
  else none

/-- The group `(?:[\.\,]\d+)*\b` of `NUMBER_REGEX`: greedy iteration with
backtracking, ending at a word boundary (the previous character is always
a digit here, so `\b` holds iff the next character is non-word or absent).
`fuel` bounds the iteration count and is instantiated with the text
length. -/
def numGroupStar : Nat → List Char → Option (List Char)
  | 0, cs => if isWordO cs.head? then none else some cs
  | f + 1, cs =>
    match
      (match cs with
       | c :: rest =>
         if c = '.' || c = ',' then greedyBt isDigitC (numGroupStar f) rest
         else none
       | [] => none) with
    | some r => some r
    | none => if isWordO cs.head? then none else some cs

/-- `NUMBER_REGEX = \b\d+(?:[\.\,]\d+)*\b`. -/
def tryNum (prev : Option Char) (cs : List Char) : Option (List Char) :=
  match cs with
  | [] => none
  | c :: _ =>
    if isDigitC c && wordB prev (some c) then
      greedyBt isDigitC (numGroupStar cs.length) cs
    else none

/-! ### `_sanitize_pii`, `_replace_dates_and_numbers`, `clean_transcript` -/

/-- `_replace_dates_and_numbers`: the two date substitutions then the
generic number substitution. -/
def replace_dates_and_numbers (text : List Char) : List Char :=
  let t := runSubF tryDate1 (fun _ => "<DATE>".data) none text
  let t := runSubF tryDate2 (fun _ => "<DATE>".data) none t
  runSubF tryNum (fun _ => "<NUM>".data) none t

/-- `_sanitize_pii` from `text_cleaner.py` (lines 66-79): RUT patterns,
then email, phone, address, names, and finally dates and numbers. -/
def sanitize_pii (text : List Char) : List Char :=
  let t := runSubF tryRut1 (fun _ => "<<RUT>>".data) none text
  let t := runSubF tryRut2 (fun _ => "<<RUT>>".data) none t
  let t := runSubF tryRut3 (fun _ => "<<RUT>>".data) none t
  let t := runSubF tryEmail (fun _ => "<<EMAIL>>".data) none t
  let t := runSubF tryPhone (fun _ => "<<TELEFONO>>".data) none t
  let t := runSubF tryAddress (fun _ => "<<DIRECCION>>".data) none t
  let t := replace_names t
  replace_dates_and_numbers t

/-- Anchored speaker pattern
`\[\d{2}:\d{2}:\d{2}\]\s*(AGENTE|CLIENTE):\s*(.*)` with `re.IGNORECASE`
(`re.match`): returns the captured speaker (as written) and content. -/
def mSpeaker (line : List Char) : Option (List Char × List Char) :=
  (lit1 '[' line).bind fun r1 =>
  (dropExact isDigitC 2 r1).bind fun r2 =>
  (lit1 ':' r2).bind fun r3 =>
  (dropExact isDigitC 2 r3).bind fun r4 =>
  (lit1 ':' r4).bind fun r5 =>
  (dropExact isDigitC 2 r5).bind fun r6 =>
  (lit1 ']' r6).bind fun r7 =>
  let r8 := r7.dropWhile isSpaceC
  let finish : List Char → List Char → Option (List Char × List Char) :=
    fun sp r9 =>
      (lit1 ':' r9).map fun r10 => (sp, r10.dropWhile isSpaceC)
  match (litStrCI "agente".data r8).bind (finish (r8.take 6)) with
  | some x => some x
  | none => (litStrCI "cliente".data r8).bind (finish (r8.take 7))

/-- Python `raw_text.replace("\r\n", "\n").replace("\r", "\n")`:
left-to-right non-overlapping replacement, `"\r\n"` first. -/
def normNl (t : List Char) : List Char :=
  runSubF (fun _ => litStr ['\x0d']) (fun _ => ['\n']) none
    (runSubF (fun _ => litStr ['\x0d', '\n']) (fun _ => ['\n']) none t)

/-- Python `text.split("\n")` (keeps empty fields). -/
def splitNl : List Char → List (List Char)
  | [] => [[]]
  | c :: rest =>
    if c = '\n' then [] :: splitNl rest
    else
      match splitNl rest with
      | l :: ls => (c :: l) :: ls
      | [] => [[c]]

/-- One line of `clean_transcript`'s loop (lines 104-133).  The `m_ts`
match at line 114 computes a `content_sanitized` that is dead for the
returned plain text (it only fed the commented-out timestamped variant),
so only the drop checks, the speaker match and the generic sanitisation
appear here. -/
def processLine (line0 : List Char) : Option (List Char) :=
  let line := stripL line0
  if line.isEmpty then none
  else if containsSub "SISTEMA:".data line then none
  else if containsSub "[FIN DE LA LLAMADA]".data (line.map upperX) then none
  else
    match mSpeaker line with
    | some (sp, content) =>
      some (sp.map upperX ++ [':', ' '] ++ stripL (sanitize_pii content))
    | none => some (sanitize_pii line)

/-- `clean_transcript` from `text_cleaner.py` (lines 82-141): normalise
line endings, drop system/end-of-call lines, sanitise PII per line, strip
timestamps from speaker lines, join with newlines. -/
def clean_transcript (raw_text : List Char) : List Char :=
  if raw_text.isEmpty then []
  else
    List.intercalate ['\n'] ((splitNl (normNl raw_text)).filterMap processLine)

/-- `clean_transcript` on `String`s. -/
def clean_transcript_str (raw_text : String) : String :=
  String.mk (clean_transcript raw_text.data)

/-! ### Snippet extraction (`text_cleaner.get_snippet`, lines 165-198) -/

/-- The `for word in words` fallback loop of `get_snippet`: position of the
first individually found query word, `none` when no word is found. -/
def firstFound (hay : List Char) : List (List Char) → Option Nat
  | [] => none
  | w :: ws =>
    match findSub w hay with
    | some p => some p
    | none => firstFound hay ws

/-- `get_snippet` from `text_cleaner.py` over `List Char`.  Python's
`max(0, pos - context_chars)` is Nat subtraction, `text[start:end]` is
`drop`/`take`. -/
def get_snippet_list (text query : List Char) (context_chars : Nat) : List Char :=
  let text_lower := text.map lowerX
  let query_lower := query.map lowerX
  let pos0 := findSub query_lower text_lower
  let pos :=
    match pos0 with
    | some p => some p
    | none => firstFound text_lower (splitWs query_lower)
  match pos with
  | none => text.take (context_chars * 2) ++ ['.', '.', '.']
  | some p =>
    let start := p - context_chars
    let stop := min text.length (p + query.length + context_chars)
    let snippet := (text.drop start).take (stop - start)
    let snippet := if 0 < start then ['.', '.', '.'] ++ snippet else snippet
    let snippet := if stop < text.length then snippet ++ ['.', '.', '.'] else snippet
    snippet

/-- `get_snippet` on `String`s (the Python default for `context_chars`
is `100`; callers here always pass it explicitly). -/
def get_snippet (text query : String) (context_chars : Nat) : String :=
  String.mk (get_snippet_list text.data query.data context_chars)

/-- Python `str.strip()` on `String`s. -/
def stripS (s : String) : String := String.mk (stripL s.data)

/-- The lowercase ASCII letters (used to state the C6 family theorem). -/
def lowerAZ : List Char := "abcdefghijklmnopqrstuvwxyz".data

/-! ### Cosine similarity (`embedding_service.cosine_similarity`,
lines 58-70).  Floats are modelled as real numbers. -/

/-- Dot product (`np.dot`) of two vectors given as lists. -/
def dotL (a b : List ℝ) : ℝ := (List.zipWith (· * ·) a b).sum

/-- Euclidean norm (`np.linalg.norm`). -/
noncomputable def normL (a : List ℝ) : ℝ := Real.sqrt (dotL a a)

/-- `cosine_similarity`: dot product over the product of the norms,
defined as `0.0` when either norm is zero. -/
noncomputable def cosine_similarity (vec1 vec2 : List ℝ) : ℝ :=
  if normL vec1 = 0 ∨ normL vec2 = 0 then 0
  else dotL vec1 vec2 / (normL vec1 * normL vec2)

/-! ### Semantic search (`search_service.semantic_search`, lines 127-237) -/

/-- A `Transcript` row as the search service reads it. -/
structure DbTranscript where
  id : Nat
  filename : String
  category : Option String
  cleaned_content : Option String
  embedding : Option (List ℝ)

/-- A search result `(transcript_dict, similarity, snippet)`. -/
structure SearchHit where
  id : Nat
  filename : String
  category : Option String
  similarity : ℝ
  snippet : String

/-- The snippet construction of `semantic_search` (lines 202-211): the
cleaned content with the `get_transcript_cleaned(filename) or ""`
fallback (`fileStore` is the storage collaborator), then `get_snippet`
when the query is nonempty, else the first 200 characters. -/
noncomputable def semanticSnippet (fileStore : String → Option String)
    (query : String) (r : DbTranscript) : String :=
  let cleaned :=
    match r.cleaned_content with
    | some s => if s = "" then (fileStore r.filename).getD "" else s
    | none => (fileStore r.filename).getD ""
  if ¬(query = "") ∧ ¬(stripS query = "") then get_snippet cleaned query 100
  else if 200 < cleaned.data.length then String.mk (cleaned.data.take 200) ++ "..."
  else cleaned

/-- The scan loop of `semantic_search` (lines 174-219): skip records whose
stored embedding is absent, skip stored vectors whose length differs from
the query vector's, compute the cosine similarity, and keep records with
similarity at least the threshold. -/
noncomputable def semScan (fileStore : String → Option String) (query : String)
    (query_vector : List ℝ) (threshold : ℝ) : List DbTranscript → List SearchHit
  | [] => []
  | r :: rest =>
    match r.embedding with
    | none => semScan fileStore query query_vector threshold rest
    | some v =>
      if v.length = query_vector.length then
        let sim := cosine_similarity query_vector v
        (if threshold ≤ sim then
          [⟨r.id, r.filename, r.category, sim, semanticSnippet fileStore query r⟩]
         else []) ++ semScan fileStore query query_vector threshold rest
      else semScan fileStore query query_vector threshold rest

/-- Stable descending insertion by similarity (Python `list.sort` with
`reverse=True` is stable: equal keys keep insertion order). -/
noncomputable def insertDesc (x : SearchHit) : List SearchHit → List SearchHit
  | [] => [x]
  | y :: ys => if y.similarity < x.similarity then x :: y :: ys else y :: insertDesc x ys

/-- Stable sort by similarity, descending. -/
noncomputable def sortDesc (l : List SearchHit) : List SearchHit :=
  l.foldl (fun acc x => insertDesc x acc) []

/-- `semantic_search`: empty or whitespace-only query yields no results;
the query embedding acquisition (`get_embedding_langchain`) is abstracted
as `query_embedding` (`none` covers both a `None` provider result and the
caught exception path, each of which returns `[]`); only records carrying
an embedding are scanned; results are sorted by similarity descending and
truncated to `limit`. -/
noncomputable def semantic_search (fileStore : String → Option String)
    (query_embedding : Option (List ℝ)) (corpus : List DbTranscript)
    (query : String) (limit : Nat) (threshold : ℝ) : List SearchHit :=
  if query = "" ∨ stripS query = "" then []
  else
    match query_embedding with
    | none => []
    | some qv =>
      (sortDesc (semScan fileStore query qv threshold
        (corpus.filter fun r => r.embedding.isSome))).take limit

/-! ### Hybrid search fusion (`search_service.hybrid_search`, lines 44-64) -/

/-- Python-dict assignment `d[k] = v`: replace in place (keeping the
original insertion position) or append. -/
def dictInsert (k : String) (v : α) : List (String × α) → List (String × α)
  | [] => [(k, v)]
  | (k', v') :: rest =>
    if k' = k then (k', v) :: rest else (k', v') :: dictInsert k v rest

/-- Python-dict lookup. -/
def dictLookup (k : String) : List (String × α) → Option α
  | [] => none
  | (k', v') :: rest => if k' = k then some v' else dictLookup k rest

/-- The `combined` dict of `hybrid_search` (lines 44-56), keyed by
filename: first all semantic results are inserted tagged `"semantic"`,
then each keyword result whose key is not yet present is inserted with
score `max(0.85, similarity)` tagged `"keyword"`. -/
noncomputable def hybridCombined (semantic_results keyword_results : List SearchHit) :
    List (String × (SearchHit × String)) :=
  let c1 := semantic_results.foldl
    (fun acc h => dictInsert h.filename (h, "semantic") acc) []
  keyword_results.foldl
    (fun acc h =>
      if (dictLookup h.filename acc).isSome then acc
      else
        dictInsert h.filename
          (⟨h.id, h.filename, h.category, max 0.85 h.similarity, h.snippet⟩, "keyword") acc)
    c1

/-- The fusion-and-rank step of `hybrid_search` (lines 44-64), taking the
two phase outputs as inputs (the phases themselves need the database and
the embedding provider): merge into `combined`, drop the source tag, sort
by score descending, truncate to `limit`. -/
noncomputable def hybrid_search_fuse (semantic_results keyword_results : List SearchHit)
    (limit : Nat) : List SearchHit :=
  (sortDesc ((hybridCombined semantic_results keyword_results).map
    (fun kv => kv.2.1))).take limit

/-! ### Rate limiter (`rate_limiter.RateLimiter`, lines 26-126) -/

/-- Constructor arguments of `RateLimiter.__init__`. -/
structure RLConfig where
  tokens_per_minute : ℚ
  requests_per_minute : Nat
  tokens_per_second : ℚ

/-- The source defaults: 1000000 tokens/min, 3000 requests/min, and
`tokens_per_second = int(tokens_per_minute * 0.8 / 60)`. -/
def defaultRLConfig : RLConfig :=
  ⟨1000000, 3000, ((⌊(1000000 * (8 / 10) / 60 : ℚ)⌋ : ℤ) : ℚ)⟩

/-- The two sliding-window histories. -/
structure RLState where
  token_history : List (ℚ × ℚ)
  request_history : List ℚ

/-- Which branch of `wait_for_capacity` produced a sleep. -/
inductive SleepKind
  | reqWait
  | tpmWait
  | tpsWait
deriving DecidableEq

/-- Python `int()` on a rational: truncation toward zero. -/
def pyInt (q : ℚ) : ℤ := if 0 ≤ q then ⌊q⌋ else -⌊-q⌋

/-- `RateLimiter.wait_for_capacity` (lines 50-115) as a pure transition.
`clock i` models the value returned by the `i`-th `time.time()` call
(call 0 at entry, call 1 after the request-limit sleep when taken, and a
final call before recording).  The result is the ordered list of
`asyncio.sleep` calls and the new state; `none` models the `IndexError`
that `request_history[0]` would raise when `requests_per_minute = 0` and
the pruned history is empty.  The lock and the log lines are elided. -/
def wait_for_capacity (cfg : RLConfig) (st : RLState) (clock : Nat → ℚ)
    (estimated_tokens : ℚ) : Option (List (SleepKind × ℚ) × RLState) :=
  let current_time := clock 0
  let minute_ago := current_time - 60
  let tok1 := st.token_history.dropWhile (fun e => e.1 < minute_ago)
  let req1 := st.request_history.dropWhile (fun r => r < minute_ago)
  let step1 : Option (List (SleepKind × ℚ) × ℚ × List ℚ × Nat) :=
    if cfg.requests_per_minute ≤ req1.length then
      match req1.head? with
      | none => none
      | some oldest_request =>
        let wait_time := 60 - (current_time - oldest_request) + 1 / 10
        if 0 < wait_time then
          let t1 := clock 1
          some ([(SleepKind.reqWait, wait_time)], t1,
            req1.dropWhile (fun r => r < t1 - 60), 2)
        else some ([], current_time, req1, 1)
    else some ([], current_time, req1, 1)
  match step1 with
  | none => none
  | some (sleeps1, cur, req2, cidx) =>
    let total_tokens_last_minute := (tok1.map (fun e => e.2)).sum
    let sleeps2 :=
      if cfg.tokens_per_minute < total_tokens_last_minute + estimated_tokens then
        match tok1.head? with
        | some oldest =>
          let wait_time := 60 - (cur - oldest.1) + 1 / 10
          if 0 < wait_time then [(SleepKind.tpmWait, min wait_time 5)] else []
        | none => []
      else []
    let second_ago := cur - 1
    let tokens_last_second :=
      ((tok1.filter (fun e => second_ago ≤ e.1)).map (fun e => e.2)).sum
    let sleeps3 :=
      if cfg.tokens_per_second < tokens_last_second + estimated_tokens then
        let wait_time := 11 / 10 - (cur - (pyInt cur : ℚ))
        if 0 < wait_time then [(SleepKind.tpsWait, wait_time)] else []
      else []
    let t_end := clock cidx
    some (sleeps1 ++ sleeps2 ++ sleeps3,
      ⟨tok1 ++ [(t_end, estimated_tokens)], req2 ++ [t_end]⟩)

/-! ### Embedding accessor (`embedding_service.get_or_create_embedding`,
lines 19-55) -/

/-- A `Transcript` row as the embedding accessor reads and writes it. -/
structure EmbTranscript where
  filename : String
  content : String
  cleaned_content : Option String
  embedding : Option (List ℚ)

/-- Outcome of the `get_embedding` provider call: a vector, a `None`
result, or a raised exception. -/
inductive EmbedOutcome
  | ok (v : List ℚ)
  | noneResult
  | raised

/-- `get_or_create_embedding`: returns (result, updated record, whether
the provider was called).  A record that already holds a vector is
returned as-is with no provider call (`get_embedding_array` merely
converts the stored value); otherwise the cleaned text (stored
`cleaned_content` or a fresh `clean_transcript`, Python falsy-`or`) must
be nonempty after stripping, and on a provider failure (`None` result or
exception, which is caught and printed) `None` is returned with the
record untouched; on success the vector and the cleaned text are
persisted onto the record (`set_embedding`, `db.commit`). -/
def get_or_create_embedding (provider : EmbedOutcome) (t : EmbTranscript) :
    Option (List ℚ) × EmbTranscript × Bool :=
  match t.embedding with
  | some v => (some v, t, false)
  | none =>
    let cleaned :=
      match t.cleaned_content with
      | some s => if s = "" then clean_transcript_str t.content else s
      | none => clean_transcript_str t.content
    if cleaned = "" ∨ String.mk (stripL cleaned.data) = "" then (none, t, false)
    else
      match provider with
      | .ok v => (some v, ⟨t.filename, t.content, some cleaned, some v⟩, true)
      | .noneResult => (none, t, true)
      | .raised => (none, t, true)

/-! ### Batch embedding path (`langchain_service.get_embeddings_batch`,
lines 147-227) -/

/-- Outcome of one `embeddings.embed_documents` attempt on one chunk:
success, a rate-limit error ("rate limit"/"429" in the message), or any
other exception. -/
inductive ChunkOutcome
  | ok (embs : List (List ℚ))
  | rateLimited
  | failed

/-- How the per-chunk retry loop ended. -/
inductive BatchStep
  | success (embs : List (List ℚ))
  | raisedWithPlaceholders
  | raisedBare

/-- The retry loop `for attempt in range(max_retries)` for one chunk
(`outcome attempt` is the attempt's provider outcome; the backoff sleeps
are elided).  A rate-limit error before the last attempt retries; any
other arrival at the `else` branch logs, appends `None` placeholders when
`attempt == max_retries - 1`, and re-raises.  `none` means the loop body
never ran (`max_retries = 0`), leaving `chunk_processed = False`. -/
def chunkLoop (outcome : Nat → ChunkOutcome) (max_retries : Nat) :
    Nat → Nat → Option BatchStep
  | _, 0 => none
  | attempt, remaining + 1 =>
    match outcome attempt with
    | .ok embs => some (.success embs)
    | .rateLimited =>
      if attempt < max_retries - 1 then
        chunkLoop outcome max_retries (attempt + 1) remaining
      else some (if attempt = max_retries - 1 then .raisedWithPlaceholders
                 else .raisedBare)
    | .failed =>
      some (if attempt = max_retries - 1 then .raisedWithPlaceholders
            else .raisedBare)

/-- `texts[i:i+100]` chunking (`BATCH_SIZE = 100`); the fuel is
instantiated with the list length so the kernel can evaluate. -/
def chunksOf (n : Nat) : Nat → List α → List (List α)
  | 0, _ => []
  | _, [] => []
  | f + 1, l => l.take n :: chunksOf n f (l.drop n)

/-- The chunk loop of `get_embeddings_batch`: successful chunks extend
the accumulator with their embeddings, a chunk whose attempt loop never
ran contributes `None` placeholders (`if not chunk_processed`), and a
chunk that reaches the `raise` aborts the whole call with the exception
(`Except.error`) — the placeholders appended just before the final raise
are discarded along with the local list. -/
def batchLoop (provider : Nat → Nat → ChunkOutcome) (max_retries : Nat) :
    Nat → List (List String) → List (Option (List ℚ)) →
    Except Unit (List (Option (List ℚ)))
  | _, [], acc => .ok acc
  | ci, chunk :: rest, acc =>
    match chunkLoop (provider ci) max_retries 0 max_retries with
    | some (.success embs) =>
      batchLoop provider max_retries (ci + 1) rest (acc ++ embs.map some)
    | some .raisedWithPlaceholders => .error ()
    | some .raisedBare => .error ()
    | none =>
      batchLoop provider max_retries (ci + 1) rest
        (acc ++ List.replicate chunk.length none)

/-- `get_embeddings_batch`: truncate each text to 32000 characters,
chunk by 100, and process the chunks in order through the retry loop.
Rate-limiter waits do not affect the result and are elided. -/
def get_embeddings_batch (provider : Nat → Nat → ChunkOutcome)
    (texts : List String) (max_retries : Nat) :
    Except Unit (List (Option (List ℚ))) :=
  let truncated := texts.map fun t => String.mk (t.data.take 32000)
  batchLoop provider max_retries 0 (chunksOf 100 truncated.length truncated) []

/-! ### Regex search (whether a pattern matches anywhere in a text) -/

/-- Whether matcher `m` fires at some position of the text (Python
`re.search`): the scan carries the previous character for `\b`. -/
def hasMatch (m : Option Char → List Char → Option (List Char)) :
    Option Char → List Char → Bool
  | prev, [] => (m prev []).isSome
  | prev, c :: cs => (m prev (c :: cs)).isSome || hasMatch m (some c) cs

/-- The email-bearing line family of the C6 theorem: an email with
letter-only local part `l`, domain `d` and top-level domain `t`, embedded
in a fixed retained line. -/
def emailFrame (l d t : List Char) : List Char :=
  "contacto ".data ++ (l ++ '@' :: (d ++ '.' :: (t ++ " gracias".data)))

/-! ### Helper lemmas: `runSubF` and the greedy combinators -/

theorem runSubFAux_fuel (m : Option Char → List Char → Option (List Char))
    (repl : List Char → List Char) :
    ∀ (f f' : Nat) (prev : Option Char) (cs : List Char),
      cs.length ≤ f → cs.length ≤ f' →
      runSubFAux m repl f prev cs = runSubFAux m repl f' prev cs := by
  intro f
  induction f with
  | zero =>
    intro f' prev cs hf _
    have hnil : cs = [] := List.length_eq_zero.mp (Nat.le_zero.mp hf)
    subst hnil
    cases f' <;> rfl
  | succ f ih =>
    intro f' prev cs hf hf'
    cases cs with
    | nil => cases f' <;> rfl
    | cons c cs' =>
      cases f' with
      | zero => simp at hf'
      | succ f'' =>
        have hf1 : cs'.length ≤ f := by
          simp only [List.length_cons] at hf; omega
        have hf1' : cs'.length ≤ f'' := by
          simp only [List.length_cons] at hf'; omega
        simp only [runSubFAux]
        cases hm : m prev (c :: cs') with
        | none => rw [ih f'' (some c) cs' hf1 hf1']
        | some rest =>
          by_cases hlen : rest.length < (c :: cs').length
          · simp only [if_pos hlen]
            have hr : rest.length ≤ f := by
              simp only [List.length_cons] at hlen; omega
            have hr' : rest.length ≤ f'' := by
              simp only [List.length_cons] at hlen; omega
            rw [ih f'' _ rest hr hr']
          · simp only [if_neg hlen]
            rw [ih f'' (some c) cs' hf1 hf1']

theorem runSubF_skip (m : Option Char → List Char → Option (List Char))
    (repl : List Char → List Char) (prev : Option Char) (c : Char)
    (cs : List Char) (h : m prev (c :: cs) = none) :
    runSubF m repl prev (c :: cs) = c :: runSubF m repl (some c) cs := by
  unfold runSubF
  simp only [List.length_cons, runSubFAux, h]

theorem runSubF_hit (m : Option Char → List Char → Option (List Char))
    (repl : List Char → List Char) (prev : Option Char) (c : Char)
    (cs rest : List Char) (h : m prev (c :: cs) = some rest)
    (hlen : rest.length ≤ cs.length) :
    runSubF m repl prev (c :: cs) =
      repl ((c :: cs).take ((c :: cs).length - rest.length)) ++
        runSubF m repl
          ((c :: cs).take ((c :: cs).length - rest.length)).getLast? rest := by
  have hlt : rest.length < (c :: cs).length := by
    simp only [List.length_cons]; omega
  unfold runSubF
  simp only [List.length_cons, runSubFAux, h]
  rw [if_pos (show rest.length < cs.length + 1 by omega)]
  congr 1
  exact runSubFAux_fuel m repl cs.length rest.length _ rest hlen le_rfl

theorem runSubFAux_id (m : Option Char → List Char → Option (List Char))
    (repl : List Char → List Char) :
    ∀ (f : Nat) (prev : Option Char) (cs : List Char),
      (∀ prev' s, s <:+ cs → m prev' s = none) →
      runSubFAux m repl f prev cs = cs := by
  intro f
  induction f with
  | zero => intro prev cs _; rfl
  | succ f ih =>
    intro prev cs h
    cases cs with
    | nil => rfl
    | cons c cs' =>
      simp only [runSubFAux, h prev (c :: cs') (List.suffix_refl _)]
      rw [ih (some c) cs'
        (fun prev' s hs => h prev' s (hs.trans (List.suffix_cons c cs')))]

theorem runSubF_id (m : Option Char → List Char → Option (List Char))
    (repl : List Char → List Char) (prev : Option Char) (cs : List Char)
    (h : ∀ prev' s, s <:+ cs → m prev' s = none) :
    runSubF m repl prev cs = cs :=
  runSubFAux_id m repl cs.length prev cs h

theorem greedyBt_append_none (p : Char → Bool)
    (cont : List Char → Option (List Char)) :
    ∀ (zs rest : List Char),
      (∀ z ∈ zs, p z = true) →
      (∀ a, rest.head? = some a → p a = false) →
      (∀ k, 1 ≤ k → k ≤ zs.length → cont (zs.drop k ++ rest) = none) →
      greedyBt p cont (zs ++ rest) = none := by
  intro zs
  induction zs with
  | nil =>
    intro rest _ hstop _
    cases rest with
    | nil => rfl
    | cons a r => simp [greedyBt, hstop a rfl]
  | cons z zs ih =>
    intro rest hall hstop hfail
    have hz : p z = true := hall z (List.mem_cons_self _ _)
    have hinner : greedyBt p cont (zs ++ rest) = none := by
      apply ih rest (fun w hw => hall w (List.mem_cons_of_mem _ hw)) hstop
      intro k hk1 hk
      have hh := hfail (k + 1) (by omega)
        (by simp only [List.length_cons]; omega)
      simpa [List.drop_succ_cons] using hh
    have hcont : cont (zs ++ rest) = none := by
      have hh := hfail 1 le_rfl (by simp only [List.length_cons]; omega)
      simpa using hh
    simp only [List.cons_append, greedyBt, hz, if_true, List.append_eq,
      hinner, hcont]

theorem greedyBt_append_some (p : Char → Bool)
    (cont : List Char → Option (List Char)) :
    ∀ (zs : List Char) (j : Nat) (rest res : List Char),
      (∀ z ∈ zs, p z = true) →
      (∀ a, rest.head? = some a → p a = false) →
      1 ≤ j → j ≤ zs.length →
      cont (zs.drop j ++ rest) = some res →
      (∀ k, j < k → k ≤ zs.length → cont (zs.drop k ++ rest) = none) →
      greedyBt p cont (zs ++ rest) = some res := by
  intro zs
  induction zs with
  | nil =>
    intro j rest res _ _ hj1 hj _ _
    simp at hj; omega
  | cons z zs ih =>
    intro j rest res hall hstop hj1 hj hcont hfail
    have hz : p z = true := hall z (List.mem_cons_self _ _)
    match j, hj1 with
    | 1, _ =>
      have hinner : greedyBt p cont (zs ++ rest) = none := by
        apply greedyBt_append_none p cont zs rest
          (fun w hw => hall w (List.mem_cons_of_mem _ hw)) hstop
        intro k hk1 hk
        have hh := hfail (k + 1) (by omega)
          (by simp only [List.length_cons]; omega)
        simpa [List.drop_succ_cons] using hh
      have hcont1 : cont (zs ++ rest) = some res := by
        simpa using hcont
      simp only [List.cons_append, greedyBt, hz, if_true, List.append_eq,
        hinner, hcont1]
    | j' + 2, _ =>
      have hinner : greedyBt p cont (zs ++ rest) = some res := by
        apply ih (j' + 1) rest res
          (fun w hw => hall w (List.mem_cons_of_mem _ hw)) hstop
          (by omega)
          (by simp only [List.length_cons] at hj; omega)
          (by simpa [List.drop_succ_cons] using hcont)
        intro k hk1 hk
        have hh := hfail (k + 1) (by omega)
          (by simp only [List.length_cons]; omega)
        simpa [List.drop_succ_cons] using hh
      simp only [List.cons_append, greedyBt, hz, if_true, List.append_eq,
        hinner]

/-! ### Helper lemmas: character facts and small list facts -/

theorem az_facts : ∀ c ∈ lowerAZ,
    emailC c = true ∧ isWordC c = true ∧ isDigitC c = false ∧
    isSpaceC c = false ∧ c ≠ '@' ∧ c ≠ '.' ∧ c ≠ '\x0d' ∧ c ≠ '\n' ∧
    c ≠ 'S' ∧ upperX c ≠ '[' := by decide

theorem drop_append_len (l₁ l₂ : List Char) (n : Nat) :
    (l₁ ++ l₂).drop (l₁.length + n) = l₂.drop n := by
  induction l₁ with
  | nil => simp
  | cons a l₁ ih =>
    rw [List.cons_append, List.length_cons,
      show l₁.length + 1 + n = (l₁.length + n) + 1 from by omega,
      List.drop_succ_cons, ih]

theorem dropExact_head_false (p : Char → Bool) (k : Nat) (cs : List Char)
    (h : ∀ a, cs.head? = some a → p a = false) :
    dropExact p (k + 1) cs = none := by
  cases cs with
  | nil => rfl
  | cons c cs' => simp [dropExact, h c rfl]

theorem boundedBt_lo1_none (p : Char → Bool)
    (cont : List Char → Option (List Char)) :
    ∀ (hi : Nat) (cs : List Char), (∀ a, cs.head? = some a → p a = false) →
      boundedBt p 1 hi cont cs = none := by
  intro hi
  induction hi with
  | zero => intro cs _; rfl
  | succ hi ih =>
    intro cs h
    simp only [boundedBt, dropExact_head_false p hi cs h,
      if_neg (by omega : ¬hi + 1 < 1)]
    exact ih cs h

theorem tryRut1_no_digit (prev : Option Char) (cs : List Char)
    (h : ∀ a, cs.head? = some a → isDigitC a = false) :
    tryRut1 prev cs = none := by
  unfold tryRut1
  rw [boundedBt_lo1_none _ _ 3 cs h]
  split <;> rfl

theorem tryRut2_no_digit (prev : Option Char) (cs : List Char)
    (h : ∀ a, cs.head? = some a → isDigitC a = false) :
    tryRut2 prev cs = none := by
  unfold tryRut2
  rw [boundedBt_lo1_none _ _ 2 cs h]
  split <;> rfl

theorem tryRut3_no_digit (prev : Option Char) (cs : List Char)
    (h : ∀ a, cs.head? = some a → isDigitC a = false) :
    tryRut3 prev cs = none := by
  unfold tryRut3
  rw [boundedBt_lo1_none _ _ 3 cs h]
  split <;> rfl

theorem listStartsWith_subset :
    ∀ (n h : List Char), listStartsWith n h = true → ∀ c ∈ n, c ∈ h := by
  intro n
  induction n with
  | nil => intro h _ c hc; cases hc
  | cons a as ih =>
    intro h hsw c hc
    cases h with
    | nil => simp [listStartsWith] at hsw
    | cons b bs =>
      simp only [listStartsWith, Bool.and_eq_true, decide_eq_true_eq] at hsw
      rcases List.mem_cons.mp hc with rfl | hmem
      · exact hsw.1 ▸ List.mem_cons_self _ _
      · exact List.mem_cons_of_mem _ (ih bs hsw.2 c hmem)

theorem containsSub_subset :
    ∀ (n hay : List Char), containsSub n hay = true → ∀ c ∈ n, c ∈ hay := by
  intro n hay
  induction hay with
  | nil =>
    intro h c hc
    cases n with
    | nil => cases hc
    | cons a as => simp [containsSub, listStartsWith] at h
  | cons b bs ih =>
    intro h c hc
    simp only [containsSub, Bool.or_eq_true] at h
    rcases h with h | h
    · exact listStartsWith_subset n (b :: bs) h c hc
    · exact List.mem_cons_of_mem _ (ih h c hc)

theorem containsSub_false (n₀ : Char) (ns hay : List Char) (h : n₀ ∉ hay) :
    containsSub (n₀ :: ns) hay = false := by
  cases hcs : containsSub (n₀ :: ns) hay with
  | false => rfl
  | true =>
    exact absurd (containsSub_subset _ _ hcs n₀ (List.mem_cons_self _ _)) h

theorem stripL_eq_self (cs : List Char)
    (h1 : ∀ c, cs.head? = some c → isSpaceC c = false)
    (h2 : ∀ c, cs.getLast? = some c → isSpaceC c = false) :
    stripL cs = cs := by
  unfold stripL
  have hdrop : cs.dropWhile (fun c => isSpaceC c) = cs := by
    cases cs with
    | nil => rfl
    | cons c cs' => simp [List.dropWhile_cons, h1 c rfl]
  rw [hdrop]
  have hrev : cs.reverse.dropWhile (fun c => isSpaceC c) = cs.reverse := by
    cases hr : cs.reverse with
    | nil => rfl
    | cons c cs' =>
      have hg : cs.getLast? = some c := by
        rw [← List.head?_reverse, hr]; rfl
      simp [List.dropWhile_cons, h2 c hg]
  rw [hrev, List.reverse_reverse]

theorem splitNl_no_nl : ∀ cs : List Char, '\n' ∉ cs → splitNl cs = [cs] := by
  intro cs
  induction cs with
  | nil => intro _; rfl
  | cons c cs ih =>
    intro h
    have hc : ¬(c = '\n') := fun hh => h (hh ▸ List.mem_cons_self _ _)
    have hcs := ih (fun hh => h (List.mem_cons_of_mem _ hh))
    simp [splitNl, hc, hcs]

theorem intercalate_single (x : List Char) :
    List.intercalate ['\n'] [x] = x := by
  simp [List.intercalate]

theorem mSpeaker_not_lb (c : Char) (cs : List Char) (h : ¬(c = '[')) :
    mSpeaker (c :: cs) = none := by
  simp [mSpeaker, lit1, h]

theorem emailEnd_not_dot (cs : List Char)
    (h : ∀ a, cs.head? = some a → ¬(a = '.')) : emailEnd cs = none := by
  cases cs with
  | nil => rfl
  | cons c cs' => simp [emailEnd, lit1, h c rfl]

theorem tryEmail_cond_false (prev : Option Char) (c : Char) (cs : List Char)
    (h : (emailC c && wordB prev (some c)) = false) :
    tryEmail prev (c :: cs) = none := by
  simp [tryEmail, h]

/-! ### Helper lemmas: the email substitution on the C6 family -/

theorem lit1_head_ne (x : Char) (cs : List Char)
    (h : ∀ a, cs.head? = some a → ¬(a = x)) : lit1 x cs = none := by
  cases cs with
  | nil => rfl
  | cons c cs' => simp [lit1, h c rfl]

theorem head_drop_append (zs : List Char) (k : Nat) (b : Char) (v : List Char) :
    ∀ a, (zs.drop k ++ b :: v).head? = some a → a ∈ zs ∨ a = b := by
  intro a ha
  cases hzd : zs.drop k with
  | nil => rw [hzd] at ha; simp at ha; exact Or.inr ha.symm
  | cons u us =>
    rw [hzd] at ha
    simp at ha
    exact Or.inl (ha ▸ List.drop_subset _ _ (hzd ▸ List.mem_cons_self u us))

theorem emailSub_frame (l d t : List Char) (hl : l ≠ []) (hd : d ≠ []) (ht : t ≠ [])
    (hla : ∀ c ∈ l, c ∈ lowerAZ) (hda : ∀ c ∈ d, c ∈ lowerAZ)
    (hta : ∀ c ∈ t, c ∈ lowerAZ) :
    runSubF tryEmail (fun _ => "<<EMAIL>>".data) none (emailFrame l d t) =
      "contacto <<EMAIL>> gracias".data := by
  have hWl : ∀ c ∈ l, isWordC c = true := fun c hc => ((az_facts c (hla c hc)).2.1)
  have hEl : ∀ c ∈ l, emailC c = true := fun c hc => ((az_facts c (hla c hc)).1)
  have hEd : ∀ c ∈ d, emailC c = true := fun c hc => ((az_facts c (hda c hc)).1)
  have hWt : ∀ c ∈ t, isWordC c = true := fun c hc => ((az_facts c (hta c hc)).2.1)
  have hEt : ∀ c ∈ t, emailC c = true := fun c hc => ((az_facts c (hta c hc)).1)
  -- `\w+\b` on t
  have hInner3 : greedyBt isWordC
      (fun r => if isWordO r.head? then none else some r)
      (t ++ (' ' :: "gracias".data)) = some (' ' :: "gracias".data) := by
    apply greedyBt_append_some _ _ t t.length (' ' :: "gracias".data)
      (' ' :: "gracias".data) hWt
    · intro a ha; simp at ha; subst ha; decide
    · exact List.length_pos.mpr ht
    · exact le_rfl
    · rw [List.drop_length]; decide
    · intro k hk1 hk2; omega
  -- `[\w\.-]+\.\w+\b` on d ++ '.' :: t
  have hZ2all : ∀ z ∈ d ++ '.' :: t, emailC z = true := by
    intro z hz
    rcases List.mem_append.mp hz with hz | hz
    · exact hEd z hz
    · rcases List.mem_cons.mp hz with rfl | hz
      · decide
      · exact hEt z hz
  have hInner2 : greedyBt emailC emailEnd
      ((d ++ '.' :: t) ++ (' ' :: "gracias".data)) =
      some (' ' :: "gracias".data) := by
    apply greedyBt_append_some _ _ (d ++ '.' :: t) d.length
      (' ' :: "gracias".data) (' ' :: "gracias".data) hZ2all
    · intro a ha; simp at ha; subst ha; decide
    · exact List.length_pos.mpr hd
    · simp only [List.length_append, List.length_cons]; omega
    · rw [List.drop_left]
      show emailEnd ('.' :: (t ++ (' ' :: "gracias".data))) =
        some (' ' :: "gracias".data)
      simp only [emailEnd, lit1, if_pos rfl, Option.some_bind]
      exact hInner3
    · intro k hk1 hk2
      rw [show k = d.length + (1 + (k - d.length - 1)) from by omega,
        drop_append_len,
        show (1 + (k - d.length - 1)) = (k - d.length - 1) + 1 from by omega,
        List.drop_succ_cons]
      apply emailEnd_not_dot
      intro a ha
      rcases head_drop_append t (k - d.length - 1) ' ' "gracias".data a ha with hm | rfl
      · exact ((az_facts a (hta a hm)).2.2.2.2.2.1)
      · decide
  obtain ⟨l0, l', rfl⟩ : ∃ l0 l', l = l0 :: l' := by
    cases l with
    | nil => exact absurd rfl hl
    | cons a b => exact ⟨a, b, rfl⟩
  have hR1 : (d ++ '.' :: (t ++ " gracias".data) : List Char) =
      (d ++ '.' :: t) ++ (' ' :: "gracias".data) := by
    rw [show (" gracias".data : List Char) = ' ' :: "gracias".data from rfl]
    simp
  -- the hit at position 9
  have h9 : tryEmail (some ' ')
      (l0 :: (l' ++ '@' :: (d ++ '.' :: (t ++ " gracias".data)))) =
      some (' ' :: "gracias".data) := by
    have hcond : (emailC l0 && wordB (some ' ') (some l0)) = true := by
      have he := hEl l0 (List.mem_cons_self _ _)
      have hw := hWl l0 (List.mem_cons_self _ _)
      simp [he, hw, wordB, isWordO, show isWordC ' ' = false from by decide]
    simp only [tryEmail, hcond, if_true]
    show greedyBt emailC
      (fun r1 => (lit1 '@' r1).bind (greedyBt emailC emailEnd))
      ((l0 :: l') ++ '@' :: (d ++ '.' :: (t ++ " gracias".data))) =
      some (' ' :: "gracias".data)
    apply greedyBt_append_some _ _ (l0 :: l') (l0 :: l').length
      ('@' :: (d ++ '.' :: (t ++ " gracias".data)))
      (' ' :: "gracias".data) hEl
    · intro a ha; simp at ha; subst ha; decide
    · simp
    · exact le_rfl
    · rw [List.drop_length]
      show (lit1 '@' ('@' :: (d ++ '.' :: (t ++ " gracias".data)))).bind
        (greedyBt emailC emailEnd) = some (' ' :: "gracias".data)
      simp only [lit1, if_pos rfl, Option.some_bind]
      rw [hR1]
      exact hInner2
    · intro k hk1 hk2; omega
  -- scanning through "contacto " finds nothing
  have h0 : tryEmail none
      ('c' :: 'o' :: 'n' :: 't' :: 'a' :: 'c' :: 't' :: 'o' :: ' ' ::
        (l0 :: (l' ++ '@' :: (d ++ '.' :: (t ++ " gracias".data))))) = none := by
    show tryEmail none
      (['c', 'o', 'n', 't', 'a', 'c', 't', 'o'] ++
        (' ' :: (l0 :: (l' ++ '@' :: (d ++ '.' :: (t ++ " gracias".data)))))) = none
    simp only [tryEmail,
      show (emailC 'c' && wordB none (some 'c')) = true from by decide, if_true]
    apply greedyBt_append_none
    · decide
    · intro a ha; simp at ha; subst ha; decide
    · intro k hk1 hk8
      show (lit1 '@'
        (List.drop k ['c', 'o', 'n', 't', 'a', 'c', 't', 'o'] ++
          (' ' :: (l0 :: (l' ++ '@' ::
            (d ++ '.' :: (t ++ " gracias".data))))))).bind
        (greedyBt emailC emailEnd) = none
      have hnone : lit1 '@'
          (List.drop k ['c', 'o', 'n', 't', 'a', 'c', 't', 'o'] ++
            (' ' :: (l0 :: (l' ++ '@' ::
              (d ++ '.' :: (t ++ " gracias".data)))))) = none := by
        apply lit1_head_ne
        intro a ha
        rcases head_drop_append _ _ _ _ a ha with hm | rfl
        · exact (show ∀ x ∈ (['c', 'o', 'n', 't', 'a', 'c', 't', 'o'] : List Char),
            ¬(x = '@') from by decide) a hm
        · decide
      rw [hnone]; rfl
  -- the tail scan after the replacement
  have htail : ∀ prev, runSubF tryEmail (fun _ => "<<EMAIL>>".data) prev
      (' ' :: "gracias".data) = ' ' :: "gracias".data := by
    intro prev
    rw [runSubF_skip _ _ _ _ _ (tryEmail_cond_false prev ' ' _
      (by rw [show emailC ' ' = false from by decide, Bool.false_and])),
      show runSubF tryEmail (fun _ => "<<EMAIL>>".data) (some ' ')
        "gracias".data = "gracias".data from by decide]
  -- assemble
  show runSubF tryEmail (fun _ => "<<EMAIL>>".data) none
      ('c' :: 'o' :: 'n' :: 't' :: 'a' :: 'c' :: 't' :: 'o' :: ' ' ::
        (l0 :: (l' ++ '@' :: (d ++ '.' :: (t ++ " gracias".data))))) =
      "contacto <<EMAIL>> gracias".data
  rw [runSubF_skip _ _ _ _ _ h0,
    runSubF_skip _ _ _ _ _ (tryEmail_cond_false _ _ _ (by decide)),
    runSubF_skip _ _ _ _ _ (tryEmail_cond_false _ _ _ (by decide)),
    runSubF_skip _ _ _ _ _ (tryEmail_cond_false _ _ _ (by decide)),
    runSubF_skip _ _ _ _ _ (tryEmail_cond_false _ _ _ (by decide)),
    runSubF_skip _ _ _ _ _ (tryEmail_cond_false _ _ _ (by decide)),
    runSubF_skip _ _ _ _ _ (tryEmail_cond_false _ _ _ (by decide)),
    runSubF_skip _ _ _ _ _ (tryEmail_cond_false _ _ _ (by decide)),
    runSubF_skip _ _ _ _ _ (tryEmail_cond_false _ _ _ (by decide))]
  rw [runSubF_hit _ _ _ _ _ _ h9 (by
    simp only [List.length_append, List.length_cons]
    omega)]
  rw [htail]
  exact (by decide :
    ('c' :: 'o' :: 'n' :: 't' :: 'a' :: 'c' :: 't' :: 'o' :: ' ' ::
      ("<<EMAIL>>".data ++ ' ' :: "gracias".data) : List Char) =
    "contacto <<EMAIL>> gracias".data)

theorem litStr_head_ne (x : Char) (xs cs : List Char)
    (h : ∀ a, cs.head? = some a → ¬(a = x)) : litStr (x :: xs) cs = none := by
  cases cs with
  | nil => rfl
  | cons c cs' => simp [litStr, h c rfl]

theorem frame_getLast (l d t : List Char) :
    (emailFrame l d t).getLast? = some 's' := by
  unfold emailFrame
  rw [List.getLast?_append_of_ne_nil _ (by simp),
    List.getLast?_append_cons,
    show ('@' :: (d ++ '.' :: (t ++ " gracias".data)) : List Char) =
      ('@' :: d) ++ '.' :: (t ++ " gracias".data) from rfl,
    List.getLast?_append_cons,
    show ('.' :: (t ++ " gracias".data) : List Char) =
      ('.' :: t) ++ " gracias".data from rfl,
    List.getLast?_append_of_ne_nil _ (by decide)]
  rfl

theorem clean_frame (l d t : List Char) (hl : l ≠ []) (hd : d ≠ []) (ht : t ≠ [])
    (hla : ∀ c ∈ l, c ∈ lowerAZ) (hda : ∀ c ∈ d, c ∈ lowerAZ)
    (hta : ∀ c ∈ t, c ∈ lowerAZ) :
    clean_transcript (emailFrame l d t) = "contacto <<EMAIL>> gracias".data := by
  have hchars : ∀ c ∈ emailFrame l d t,
      c ∈ lowerAZ ∨ c = ' ' ∨ c = '@' ∨ c = '.' := by
    intro c hc
    unfold emailFrame at hc
    rcases List.mem_append.mp hc with hc | hc
    · exact (show ∀ x ∈ ("contacto ".data : List Char),
        x ∈ lowerAZ ∨ x = ' ' ∨ x = '@' ∨ x = '.' from by decide) c hc
    · rcases List.mem_append.mp hc with hc | hc
      · exact Or.inl (hla c hc)
      · rcases List.mem_cons.mp hc with rfl | hc
        · exact Or.inr (Or.inr (Or.inl rfl))
        · rcases List.mem_append.mp hc with hc | hc
          · exact Or.inl (hda c hc)
          · rcases List.mem_cons.mp hc with rfl | hc
            · exact Or.inr (Or.inr (Or.inr rfl))
            · rcases List.mem_append.mp hc with hc | hc
              · exact Or.inl (hta c hc)
              · exact (show ∀ x ∈ (" gracias".data : List Char),
                  x ∈ lowerAZ ∨ x = ' ' ∨ x = '@' ∨ x = '.' from by decide) c hc
  have hnodig : ∀ a ∈ emailFrame l d t, isDigitC a = false := by
    intro a ha
    rcases hchars a ha with h | h | h | h
    · exact (az_facts a h).2.2.1
    · subst h; decide
    · subst h; decide
    · subst h; decide
  have hnoCR : '\x0d' ∉ emailFrame l d t := by
    intro hmem
    rcases hchars _ hmem with h | h | h | h
    · exact absurd rfl ((az_facts _ h).2.2.2.2.2.2.1)
    · exact absurd h (by decide)
    · exact absurd h (by decide)
    · exact absurd h (by decide)
  have hnoNL : '\n' ∉ emailFrame l d t := by
    intro hmem
    rcases hchars _ hmem with h | h | h | h
    · exact absurd rfl ((az_facts _ h).2.2.2.2.2.2.2.1)
    · exact absurd h (by decide)
    · exact absurd h (by decide)
    · exact absurd h (by decide)
  have hsan : sanitize_pii (emailFrame l d t) =
      "contacto <<EMAIL>> gracias".data := by
    show replace_dates_and_numbers (replace_names
      (runSubF tryAddress (fun _ => "<<DIRECCION>>".data) none
        (runSubF tryPhone (fun _ => "<<TELEFONO>>".data) none
          (runSubF tryEmail (fun _ => "<<EMAIL>>".data) none
            (runSubF tryRut3 (fun _ => "<<RUT>>".data) none
              (runSubF tryRut2 (fun _ => "<<RUT>>".data) none
                (runSubF tryRut1 (fun _ => "<<RUT>>".data) none
                  (emailFrame l d t)))))))) = "contacto <<EMAIL>> gracias".data
    rw [runSubF_id _ _ _ _ (fun prev' s hs => tryRut1_no_digit prev' s
        (fun a ha => hnodig a (hs.subset (List.mem_of_mem_head? ha)))),
      runSubF_id _ _ _ _ (fun prev' s hs => tryRut2_no_digit prev' s
        (fun a ha => hnodig a (hs.subset (List.mem_of_mem_head? ha)))),
      runSubF_id _ _ _ _ (fun prev' s hs => tryRut3_no_digit prev' s
        (fun a ha => hnodig a (hs.subset (List.mem_of_mem_head? ha)))),
      emailSub_frame l d t hl hd ht hla hda hta]
    decide
  have hframe_ne : (emailFrame l d t).isEmpty = false := rfl
  have hnorm : normNl (emailFrame l d t) = emailFrame l d t := by
    unfold normNl
    rw [runSubF_id _ _ _ _ (fun prev' s hs => litStr_head_ne '\x0d' ['\n'] s
        (fun a ha heq => hnoCR (heq ▸ hs.subset (List.mem_of_mem_head? ha)))),
      runSubF_id _ _ _ _ (fun prev' s hs => litStr_head_ne '\x0d' [] s
        (fun a ha heq => hnoCR (heq ▸ hs.subset (List.mem_of_mem_head? ha))))]
  have hstrip : stripL (emailFrame l d t) = emailFrame l d t := by
    apply stripL_eq_self
    · intro c hc
      rw [show (emailFrame l d t).head? = some 'c' from rfl] at hc
      simp at hc; subst hc; decide
    · intro c hc
      rw [frame_getLast l d t] at hc
      simp at hc; subst hc; decide
  have hsistema : containsSub "SISTEMA:".data (emailFrame l d t) = false := by
    apply containsSub_false
    intro hmem
    rcases hchars _ hmem with h | h | h | h
    · exact absurd rfl ((az_facts _ h).2.2.2.2.2.2.2.2.1)
    · exact absurd h (by decide)
    · exact absurd h (by decide)
    · exact absurd h (by decide)
  have hfin : containsSub "[FIN DE LA LLAMADA]".data
      ((emailFrame l d t).map upperX) = false := by
    apply containsSub_false
    intro hmem
    rcases List.mem_map.mp hmem with ⟨b, hb, hub⟩
    rcases hchars b hb with h | h | h | h
    · exact absurd hub ((az_facts b h).2.2.2.2.2.2.2.2.2)
    · subst h; exact absurd hub (by decide)
    · subst h; exact absurd hub (by decide)
    · subst h; exact absurd hub (by decide)
  have hspeaker : mSpeaker (emailFrame l d t) = none :=
    mSpeaker_not_lb 'c' _ (by decide)
  have hproc : processLine (emailFrame l d t) =
      some (sanitize_pii (emailFrame l d t)) := by
    unfold processLine
    rw [hstrip]
    simp only [hframe_ne, hsistema, hfin, hspeaker, Bool.false_eq_true,
      if_false]
  unfold clean_transcript
  simp only [hframe_ne, Bool.false_eq_true, if_false, hnorm,
    splitNl_no_nl _ hnoNL, List.filterMap_cons, hproc, List.filterMap_nil,
    intercalate_single, hsan]

/-! ### Helper lemmas: dot products (Cauchy-Schwarz) -/

theorem dotL_self_nonneg : ∀ a : List ℝ, 0 ≤ dotL a a := by
  intro a
  induction a with
  | nil => simp [dotL]
  | cons x xs ih =>
    simp only [dotL, List.zipWith_cons_cons, List.sum_cons] at ih ⊢
    nlinarith [mul_self_nonneg x, ih]

theorem dotL_sq_le (a : List ℝ) : ∀ b : List ℝ,
    (dotL a b) ^ 2 ≤ dotL a a * dotL b b := by
  induction a with
  | nil => intro b; simp [dotL]
  | cons x xs ih =>
    intro b
    cases b with
    | nil => simp [dotL]
    | cons y ys =>
      have hS := ih ys
      have hA := dotL_self_nonneg xs
      have hB := dotL_self_nonneg ys
      simp only [dotL, List.zipWith_cons_cons, List.sum_cons] at hS hA hB ⊢
      generalize hSd : (List.zipWith (· * ·) xs ys).sum = S at hS ⊢
      generalize hAd : (List.zipWith (· * ·) xs xs).sum = A at hS hA ⊢
      generalize hBd : (List.zipWith (· * ·) ys ys).sum = B at hS hB ⊢
      rcases lt_or_eq_of_le hA with hApos | hAzero
      · nlinarith [sq_nonneg (x * S - A * y),
          mul_nonneg (add_nonneg (mul_self_nonneg x) hA) (sub_nonneg.mpr hS),
          hApos]
      · have hS2 : S ^ 2 ≤ 0 := by nlinarith [hS]
        have hS0 : S = 0 := by
          have := sq_nonneg S
          have : S ^ 2 = 0 := le_antisymm hS2 this
          exact pow_eq_zero_iff (by norm_num) |>.mp this
        subst hS0
        nlinarith [mul_self_nonneg x, mul_self_nonneg y, hB,
          mul_nonneg (mul_self_nonneg x) hB]

theorem dotL_self_pos (a : List ℝ) (h : ∃ x ∈ a, x ≠ 0) : 0 < dotL a a := by
  induction a with
  | nil => simp at h
  | cons x xs ih =>
    simp only [dotL, List.zipWith_cons_cons, List.sum_cons]
    have hxs := dotL_self_nonneg xs
    simp only [dotL] at hxs
    rcases h with ⟨w, hw, hw0⟩
    rcases List.mem_cons.mp hw with rfl | hwmem
    · have hpos : 0 < w * w := mul_self_pos.mpr hw0
      nlinarith [hpos, hxs]
    · have hpos := ih ⟨w, hwmem, hw0⟩
      simp only [dotL] at hpos
      nlinarith [mul_self_nonneg x, hpos]

/-! ### Claim C1 (idempotence of clean_transcript) -/

/-- C1 (counterexample): `clean_transcript` is NOT idempotent.  A
timestamped speaker line with empty content, `"[00:11:22] AGENTE:"`,
cleans to `"AGENTE: "` (the f-string `f"{speaker}: {content}"` leaves a
trailing blank when the sanitised content is empty); a second application
strips that blank, producing `"AGENTE:"`. -/
theorem C1_counterexample :
    clean_transcript_str (clean_transcript_str "[00:11:22] AGENTE:") ≠
      clean_transcript_str "[00:11:22] AGENTE:" := by decide

/-- C1 (amended): idempotence fails exactly by trailing-blank stripping
on speaker lines with empty sanitised content: cleaning
`"[00:11:22] AGENTE:"` once yields `"AGENTE: "` (with a trailing blank)
and cleaning that output yields `"AGENTE:"`. -/
theorem C1_amended :
    clean_transcript_str "[00:11:22] AGENTE:" = "AGENTE: " ∧
    clean_transcript_str "AGENTE: " = "AGENTE:" := by
  exact ⟨by decide, by decide⟩

/-! ### Claim C6, counterexample part (email redaction completeness) -/

/-- C6 (counterexample): the raw text `"12.345.678-k@x.com"` contains an
email-shaped substring (the whole text matches `EMAIL_REGEX`), yet the
output of `clean_transcript` does not contain `<<EMAIL>>`: the earlier RUT
substitution consumes `"12.345.678-k"` first, leaving `"<<RUT>>@x.com"`,
on which the email regex no longer matches. -/
theorem C6_counterexample :
    hasMatch tryEmail none "12.345.678-k@x.com".data = true ∧
    clean_transcript "12.345.678-k@x.com".data = "<<RUT>>@x.com".data ∧
    containsSub "<<EMAIL>>".data
      (clean_transcript "12.345.678-k@x.com".data) = false := by
  refine ⟨by decide, by decide, by decide⟩

/-- C6 (amended): an email-shaped substring is replaced by `<<EMAIL>>`
provided its line is retained and no earlier redaction (RUT) consumes it:
for every email with nonempty lowercase-letter local part `l`, domain `d`
and top-level domain `t`, embedded in the retained line
`"contacto " ++ l ++ "@" ++ d ++ "." ++ t ++ " gracias"`, the output of
`clean_transcript` is exactly `"contacto <<EMAIL>> gracias"` — it contains
`<<EMAIL>>` and does not contain the original email substring. -/
theorem C6_amended (l d t : List Char) (hl : l ≠ []) (hd : d ≠ []) (ht : t ≠ [])
    (hla : ∀ c ∈ l, c ∈ lowerAZ) (hda : ∀ c ∈ d, c ∈ lowerAZ)
    (hta : ∀ c ∈ t, c ∈ lowerAZ) :
    clean_transcript (emailFrame l d t) = "contacto <<EMAIL>> gracias".data ∧
    containsSub "<<EMAIL>>".data (clean_transcript (emailFrame l d t)) = true ∧
    containsSub (l ++ '@' :: (d ++ '.' :: t))
      (clean_transcript (emailFrame l d t)) = false := by
  have hclean := clean_frame l d t hl hd ht hla hda hta
  refine ⟨hclean, ?_, ?_⟩
  · rw [hclean]; decide
  · rw [hclean]
    cases hcs : containsSub (l ++ '@' :: (d ++ '.' :: t))
        "contacto <<EMAIL>> gracias".data with
    | false => rfl
    | true =>
      have hat : '@' ∈ ("contacto <<EMAIL>> gracias".data : List Char) :=
        containsSub_subset _ _ hcs '@'
          (List.mem_append_right _ (List.mem_cons_self _ _))
      exact absurd hat (by decide)

/-- C6 witness: the family theorem applied to the concrete email
`juan@mail.com`. -/
theorem C6_amended_witness :
    (("juan".data : List Char) ≠ [] ∧ ("mail".data : List Char) ≠ [] ∧
      ("com".data : List Char) ≠ [] ∧
      (∀ c ∈ ("juan".data : List Char), c ∈ lowerAZ) ∧
      (∀ c ∈ ("mail".data : List Char), c ∈ lowerAZ) ∧
      (∀ c ∈ ("com".data : List Char), c ∈ lowerAZ)) ∧
    (clean_transcript (emailFrame "juan".data "mail".data "com".data) =
      "contacto <<EMAIL>> gracias".data ∧
     containsSub "<<EMAIL>>".data
       (clean_transcript (emailFrame "juan".data "mail".data "com".data)) =
       true ∧
     containsSub ("juan".data ++ '@' :: ("mail".data ++ '.' :: "com".data))
       (clean_transcript (emailFrame "juan".data "mail".data "com".data)) =
       false) :=
  ⟨⟨by decide, by decide, by decide, by decide, by decide, by decide⟩,
   C6_amended "juan".data "mail".data "com".data (by decide) (by decide)
     (by decide) (by decide) (by decide) (by decide)⟩

/-! ### Claim C9 (cosine similarity bounds) -/

/-- C9: `cosine_similarity` satisfies: for all vectors `a`, `b` of equal
nonzero dimension, `-1 ≤ cos(a,b) ≤ 1`; `cos(a,a) = 1` for nonzero `a`
(exactly, in the real model); and when either argument has zero norm the
result is exactly `0`. -/
theorem C9_cosine_bounds (a b : List ℝ) (hlen : a.length = b.length)
    (hpos : 0 < a.length) :
    (-1 ≤ cosine_similarity a b ∧ cosine_similarity a b ≤ 1) ∧
    ((∃ x ∈ a, x ≠ 0) → cosine_similarity a a = 1) ∧
    (normL a = 0 → cosine_similarity a b = 0 ∧ cosine_similarity b a = 0) ∧
    (normL b = 0 → cosine_similarity a b = 0) := by
  have haa := dotL_self_nonneg a
  have hbb := dotL_self_nonneg b
  have hna : 0 ≤ normL a := Real.sqrt_nonneg _
  have hnb : 0 ≤ normL b := Real.sqrt_nonneg _
  refine ⟨?_, ?_, ?_, ?_⟩
  · by_cases h : normL a = 0 ∨ normL b = 0
    · rw [cosine_similarity, if_pos h]
      constructor <;> norm_num
    · push_neg at h
      obtain ⟨h1, h2⟩ := h
      have hpa : 0 < normL a := lt_of_le_of_ne hna (Ne.symm h1)
      have hpb : 0 < normL b := lt_of_le_of_ne hnb (Ne.symm h2)
      have habs : |dotL a b| ≤ normL a * normL b := by
        rw [show |dotL a b| = Real.sqrt ((dotL a b) ^ 2) from
          (Real.sqrt_sq_eq_abs _).symm,
          show normL a * normL b = Real.sqrt (dotL a a * dotL b b) from by
            rw [normL, normL, ← Real.sqrt_mul haa]]
        exact Real.sqrt_le_sqrt (dotL_sq_le a b)
      rw [cosine_similarity, if_neg (by push_neg; exact ⟨h1, h2⟩)]
      have hprod : 0 < normL a * normL b := mul_pos hpa hpb
      constructor
      · rw [le_div_iff₀ hprod]
        have := (abs_le.mp habs).1
        linarith
      · rw [div_le_one hprod]
        exact (abs_le.mp habs).2
  · intro hx
    have hpos' : 0 < dotL a a := dotL_self_pos a hx
    have hs0 : ¬(normL a = 0 ∨ normL a = 0) := by
      rw [normL]
      have := Real.sqrt_pos.mpr hpos'
      push_neg
      exact ⟨ne_of_gt this, ne_of_gt this⟩
    rw [cosine_similarity, if_neg hs0, normL, Real.mul_self_sqrt haa,
      div_self (ne_of_gt hpos')]
  · intro h0
    constructor
    · rw [cosine_similarity, if_pos (Or.inl h0)]
    · rw [cosine_similarity, if_pos (Or.inr h0)]
  · intro h0
    rw [cosine_similarity, if_pos (Or.inr h0)]

/-- C9 witness: the bounds theorem at `a = [3,4]`, `b = [4,3]`. -/
theorem C9_cosine_bounds_witness :
    (([3, 4] : List ℝ).length = ([4, 3] : List ℝ).length ∧
      0 < ([3, 4] : List ℝ).length) ∧
    ((-1 ≤ cosine_similarity [3, 4] [4, 3] ∧
        cosine_similarity [3, 4] [4, 3] ≤ 1) ∧
      ((∃ x ∈ ([3, 4] : List ℝ), x ≠ 0) →
        cosine_similarity [3, 4] [3, 4] = 1) ∧
      (normL [3, 4] = 0 → cosine_similarity [3, 4] [4, 3] = 0 ∧
        cosine_similarity [4, 3] [3, 4] = 0) ∧
      (normL [4, 3] = 0 → cosine_similarity [3, 4] [4, 3] = 0)) :=
  ⟨⟨by simp, by simp⟩, C9_cosine_bounds [3, 4] [4, 3] (by simp) (by simp)⟩

/-! ### Claim C7 (dimension-mismatch vectors are skipped) -/

theorem semScan_skips (fileStore : String → Option String) (query : String)
    (qv : List ℝ) (threshold : ℝ) :
    ∀ corpus : List DbTranscript,
      semScan fileStore query qv threshold
        ((corpus.filter fun r =>
            r.embedding.all fun v => v.length = qv.length).filter
          fun r => r.embedding.isSome) =
      semScan fileStore query qv threshold
        (corpus.filter fun r => r.embedding.isSome) := by
  intro corpus
  induction corpus with
  | nil => rfl
  | cons r rest ih =>
    cases hre : r.embedding with
    | none =>
      simp only [List.filter_cons, hre, Option.all_none, if_true,
        Option.isSome_none, Bool.false_eq_true, if_false]
      exact ih
    | some v =>
      by_cases hlen : v.length = qv.length
      · simp only [List.filter_cons, hre, Option.all_some,
          decide_eq_true_eq, hlen, eq_self_iff_true, if_true,
          Option.isSome_some]
        simp only [semScan, hre, hlen, eq_self_iff_true, if_true]
        rw [ih]
      · simp only [List.filter_cons, hre, Option.all_some,
          decide_eq_true_eq, hlen, if_false, Option.isSome_some, if_true]
        simp only [semScan, hre, hlen, if_false]
        exact ih

/-- C7: during the semantic similarity scan, every stored vector whose
length differs from the query vector's length is skipped: the search
returns exactly what it returns on the corpus with those records removed
(so they are excluded from similarity comparison and from the results),
and the scan over the remaining records proceeds normally with no
exception (the model is a total function). -/
theorem C7_dimension_mismatch_skipped (fileStore : String → Option String)
    (query_vector : List ℝ) (corpus : List DbTranscript)
    (query : String) (limit : Nat) (threshold : ℝ) :
    semantic_search fileStore (some query_vector) corpus query limit
        threshold =
      semantic_search fileStore (some query_vector)
        (corpus.filter fun r =>
          r.embedding.all fun v => v.length = query_vector.length)
        query limit threshold := by
  unfold semantic_search
  by_cases hq : query = "" ∨ stripS query = ""
  · simp [hq]
  · simp only [hq, if_false]
    rw [semScan_skips]

/-! ### Claim C2 (hybrid search fusion) -/

theorem dictLookup_insert_self {α : Type} (k : String) (v : α) :
    ∀ acc : List (String × α), dictLookup k (dictInsert k v acc) = some v := by
  intro acc
  induction acc with
  | nil => simp [dictInsert, dictLookup]
  | cons kv rest ih =>
    by_cases hk : kv.1 = k
    · simp [dictInsert, dictLookup, hk]
    · cases kv with
      | mk k' v' =>
        simp only at hk
        simp [dictInsert, dictLookup, hk, ih]

theorem dictLookup_insert_ne {α : Type} (k k' : String) (v : α)
    (hne : ¬(k' = k)) :
    ∀ acc : List (String × α),
      dictLookup k' (dictInsert k v acc) = dictLookup k' acc := by
  have hne' : ¬(k = k') := fun hh => hne hh.symm
  intro acc
  induction acc with
  | nil => simp [dictInsert, dictLookup, hne']
  | cons kv rest ih =>
    cases kv with
    | mk k0 v0 =>
      by_cases hk : k0 = k
      · subst hk
        simp [dictInsert, dictLookup, hne']
      · simp [dictInsert, dictLookup, hk, ih]

theorem semFold_lookup_notmem (k : String) :
    ∀ (sem : List SearchHit) (init : List (String × (SearchHit × String))),
      k ∉ sem.map (fun h => h.filename) →
      dictLookup k (sem.foldl
        (fun acc h => dictInsert h.filename (h, "semantic") acc) init) =
        dictLookup k init := by
  intro sem
  induction sem with
  | nil => intro init _; rfl
  | cons h rest ih =>
    intro init hk
    simp only [List.map_cons, List.mem_cons] at hk
    push_neg at hk
    simp only [List.foldl_cons]
    rw [ih _ hk.2, dictLookup_insert_ne _ _ _ hk.1]

theorem semFold_lookup_mem (k : String) :
    ∀ (sem : List SearchHit) (init : List (String × (SearchHit × String))),
      (sem.map (fun h => h.filename)).Nodup →
      ∀ h ∈ sem, h.filename = k →
      dictLookup k (sem.foldl
        (fun acc h => dictInsert h.filename (h, "semantic") acc) init) =
        some (h, "semantic") := by
  intro sem
  induction sem with
  | nil => intro init _ h hmem; cases hmem
  | cons h0 rest ih =>
    intro init hnd h hmem hk
    simp only [List.map_cons, List.nodup_cons] at hnd
    rcases List.mem_cons.mp hmem with rfl | hmem'
    · simp only [List.foldl_cons]
      rw [semFold_lookup_notmem k rest _ (hk ▸ hnd.1), hk,
        dictLookup_insert_self]
    · simp only [List.foldl_cons]
      exact ih _ hnd.2 h hmem' hk

theorem kwFold_lookup_isSome (k : String) :
    ∀ (kws : List SearchHit) (acc : List (String × (SearchHit × String))),
      (dictLookup k acc).isSome = true →
      dictLookup k (kws.foldl
        (fun acc h =>
          if (dictLookup h.filename acc).isSome then acc
          else dictInsert h.filename
            (⟨h.id, h.filename, h.category, max 0.85 h.similarity,
              h.snippet⟩, "keyword") acc) acc) = dictLookup k acc := by
  intro kws
  induction kws with
  | nil => intro acc _; rfl
  | cons h rest ih =>
    intro acc hsome
    simp only [List.foldl_cons]
    by_cases hh : (dictLookup h.filename acc).isSome = true
    · rw [if_pos hh, ih _ hsome]
    · rw [if_neg hh]
      have hne : ¬(k = h.filename) := by
        intro he
        rw [he] at hsome
        exact hh hsome
      rw [ih _ (by rw [dictLookup_insert_ne _ _ _ hne]; exact hsome),
        dictLookup_insert_ne _ _ _ hne]

theorem kwFold_lookup_first (k : String) :
    ∀ (kws : List SearchHit) (acc : List (String × (SearchHit × String))),
      dictLookup k acc = none →
      ∀ h, kws.find? (fun h' => h'.filename = k) = some h →
      dictLookup k (kws.foldl
        (fun acc h =>
          if (dictLookup h.filename acc).isSome then acc
          else dictInsert h.filename
            (⟨h.id, h.filename, h.category, max 0.85 h.similarity,
              h.snippet⟩, "keyword") acc) acc) =
        some (⟨h.id, h.filename, h.category, max 0.85 h.similarity,
          h.snippet⟩, "keyword") := by
  intro kws
  induction kws with
  | nil => intro acc _ h hfind; simp [List.find?] at hfind
  | cons h0 rest ih =>
    intro acc hnone h hfind
    simp only [List.foldl_cons]
    by_cases hk0 : h0.filename = k
    · rw [List.find?_cons_of_pos _ (by simp [hk0])] at hfind
      injection hfind with hfind
      subst hfind
      rw [if_neg (by rw [hk0, hnone]; simp)]
      rw [kwFold_lookup_isSome k rest _
          (by rw [hk0, dictLookup_insert_self]; rfl),
        hk0, dictLookup_insert_self]
    · rw [List.find?_cons_of_neg _ (by simp [hk0])] at hfind
      by_cases hh : (dictLookup h0.filename acc).isSome = true
      · rw [if_pos hh]
        exact ih _ hnone h hfind
      · rw [if_neg hh]
        exact ih _ (by rw [dictLookup_insert_ne _ _ _
          (fun he => hk0 he.symm)]; exact hnone) h hfind

/-- C2: in the hybrid-search fusion dict, a record appearing in the
semantic phase (whether or not it also appears in the keyword phase)
keeps its semantic score and payload, and a record appearing only in the
keyword phase is recorded with score `max 0.85 itsKeywordScore` (so a
keyword-only record with raw score 0.3 gets exactly 0.85, as the witness
shows).  Semantic filenames are assumed distinct (one result per
transcript). -/
theorem C2_fusion (sem kw : List SearchHit) (k : String)
    (hnodup : (sem.map (fun h => h.filename)).Nodup) :
    (∀ h ∈ sem, h.filename = k →
      dictLookup k (hybridCombined sem kw) = some (h, "semantic")) ∧
    (k ∉ sem.map (fun h => h.filename) →
      ∀ h, kw.find? (fun h' => h'.filename = k) = some h →
        dictLookup k (hybridCombined sem kw) =
          some (⟨h.id, h.filename, h.category, max 0.85 h.similarity,
            h.snippet⟩, "keyword")) := by
  constructor
  · intro h hmem hk
    unfold hybridCombined
    rw [kwFold_lookup_isSome k kw _
      (by rw [semFold_lookup_mem k sem [] hnodup h hmem hk]; rfl)]
    exact semFold_lookup_mem k sem [] hnodup h hmem hk
  · intro hnot h hfind
    unfold hybridCombined
    exact kwFold_lookup_first k kw _
      (by rw [semFold_lookup_notmem k sem [] hnot]; rfl) h hfind

/-- C2 witness: a semantic-only record `"a"` (score 0.9) and a
keyword-only record `"b"` with raw keyword score 0.3, whose fused score
is exactly `0.85`. -/
theorem C2_fusion_witness :
    ((([⟨1, "a", none, (0.9 : ℝ), "s"⟩] : List SearchHit).map
        (fun h => h.filename)).Nodup ∧
      "b" ∉ ([⟨1, "a", none, (0.9 : ℝ), "s"⟩] : List SearchHit).map
        (fun h => h.filename) ∧
      ([⟨2, "b", none, (0.3 : ℝ), "t"⟩] : List SearchHit).find?
        (fun h' => h'.filename = "b") = some ⟨2, "b", none, (0.3 : ℝ), "t"⟩) ∧
    dictLookup "b" (hybridCombined [⟨1, "a", none, (0.9 : ℝ), "s"⟩]
        [⟨2, "b", none, (0.3 : ℝ), "t"⟩]) =
      some (⟨2, "b", none, (0.85 : ℝ), "t"⟩, "keyword") := by
  have hnd : (([⟨1, "a", none, (0.9 : ℝ), "s"⟩] : List SearchHit).map
      (fun h => h.filename)).Nodup := by simp
  have hnm : "b" ∉ ([⟨1, "a", none, (0.9 : ℝ), "s"⟩] : List SearchHit).map
      (fun h => h.filename) := by simp
  have hfind : ([⟨2, "b", none, (0.3 : ℝ), "t"⟩] : List SearchHit).find?
      (fun h' => h'.filename = "b") = some ⟨2, "b", none, (0.3 : ℝ), "t"⟩ := rfl
  refine ⟨⟨hnd, hnm, hfind⟩, ?_⟩
  have := (C2_fusion [⟨1, "a", none, (0.9 : ℝ), "s"⟩]
    [⟨2, "b", none, (0.3 : ℝ), "t"⟩] "b" hnd).2 hnm
    ⟨2, "b", none, (0.3 : ℝ), "t"⟩ hfind
  rw [this, show max (0.85 : ℝ) 0.3 = 0.85 from by norm_num]

/-! ### Claims C5 and C10 (snippet windowing) -/

/-- C5 (counterexample): on text `"AAAAAAAAAA needle BBBBBBBBBB"`, query
`"needle"`, `contextChars = 5`, `get_snippet` does NOT return
`"...AAAAA needle BBBBB..."` as the claim states: the 5-character window on
each side of the match includes the blank adjacent to `"needle"`, so only
4 `A`s and 4 `B`s survive. -/
theorem C5_counterexample :
    get_snippet "AAAAAAAAAA needle BBBBBBBBBB" "needle" 5 ≠
      "...AAAAA needle BBBBB..." := by decide

/-- C5 (amended): on text `"AAAAAAAAAA needle BBBBBBBBBB"`, query
`"needle"`, `contextChars = 5`, `get_snippet` returns exactly
`"...AAAA needle BBBB..."` — a window of 5 characters on each side of the
match (the space plus 4 letters), with both boundary ellipses present. -/
theorem C5_amended :
    get_snippet "AAAAAAAAAA needle BBBBBBBBBB" "needle" 5 =
      "...AAAA needle BBBB..." := by decide

/-- C10: for every text and every `contextChars`, `get_snippet` with an
empty query finds the empty string at position 0 (so the not-found fallback
branch is never taken) and returns the prefix `text[0:contextChars]`, with
`"..."` appended iff `contextChars < text.length`. -/
theorem C10_empty_query_snippet (text : List Char) (cc : Nat) :
    findSub ([] : List Char) (text.map lowerX) = some 0 ∧
    get_snippet_list text [] cc =
      text.take cc ++ (if cc < text.length then ['.', '.', '.'] else []) := by
  have hfind : findSub ([] : List Char) (text.map lowerX) = some 0 := by
    cases text <;> simp [findSub, listStartsWith]
  refine ⟨hfind, ?_⟩
  unfold get_snippet_list
  simp only [List.map_nil, hfind, List.length_nil, Nat.zero_sub, Nat.sub_zero,
    List.drop_zero, Nat.add_zero, Nat.zero_add, lt_irrefl, if_false]
  have htake : text.take (min text.length cc) = text.take cc := by
    rcases le_total text.length cc with h | h
    · rw [min_eq_left h, List.take_length, List.take_of_length_le h]
    · rw [min_eq_right h]
  have hlt : (min text.length cc < text.length) ↔ (cc < text.length) := by omega
  by_cases hc : cc < text.length
  · simp [htake, hlt, hc]
  · simp [htake, hlt, hc]

/-! ### Claims C8, C4 and C3 (rate limiter and embedding paths) -/

theorem sleeps_bound_aux (s1 s2 s3 : List (SleepKind × ℚ))
    (h1 : ∀ w ∈ s1, w.1 = SleepKind.reqWait)
    (h2 : ∀ w ∈ s2, w.2 ≤ 5)
    (h3 : ∀ w ∈ s3, w.1 = SleepKind.tpsWait) :
    ∀ w ∈ s1 ++ s2 ++ s3, w.1 = SleepKind.tpmWait → w.2 ≤ 5 := by
  intro w hw hk
  rcases List.mem_append.mp hw with hw' | hw'
  · rcases List.mem_append.mp hw' with hw'' | hw''
    · rw [h1 w hw''] at hk
      cases hk
    · exact h2 w hw''
  · rw [h3 w hw'] at hk
    cases hk

theorem mem_nil_elim {α : Type} {P : α → Prop} : ∀ w ∈ ([] : List α), P w := by
  intro w hw
  cases hw

/-- **C8**: `wait_for_capacity` never fails whenever `requests_per_minute ≥ 1`
(the source defaults to 3000): it returns a list of sleeps and an admitted
state; every sleep imposed by the tokens-per-minute branch is at most 5
seconds (`wait_time = min(wait_time, 5.0)`); and the new state appends
exactly one `(timestamp, estimated_tokens)` entry to the token history and
exactly one timestamp to the request history, each after pruning (the
retained prefixes are sublists of the old histories). -/
theorem C8_reservation (cfg : RLConfig) (st : RLState) (clock : Nat → ℚ)
    (est : ℚ) (hrpm : 1 ≤ cfg.requests_per_minute) :
    ∃ sleeps tok_pre req_pre t_end,
      wait_for_capacity cfg st clock est =
        some (sleeps, ⟨tok_pre ++ [(t_end, est)], req_pre ++ [t_end]⟩) ∧
      tok_pre.Sublist st.token_history ∧
      req_pre.Sublist st.request_history ∧
      ∀ w ∈ sleeps, w.1 = SleepKind.tpmWait → w.2 ≤ 5 := by
  have htok : (st.token_history.dropWhile
      (fun e => e.1 < clock 0 - 60)).Sublist st.token_history :=
    List.dropWhile_sublist _
  have hreqsub : (st.request_history.dropWhile
      (fun r => r < clock 0 - 60)).Sublist st.request_history :=
    List.dropWhile_sublist _
  simp only [wait_for_capacity]
  by_cases hreq : cfg.requests_per_minute ≤
      (st.request_history.dropWhile (fun r => r < clock 0 - 60)).length
  · rcases hcase : st.request_history.dropWhile (fun r => r < clock 0 - 60) with
      _ | ⟨r0, rs⟩
    · rw [hcase] at hreq
      simp only [List.length_nil, Nat.le_zero] at hreq
      omega
    · rw [hcase] at hreq hreqsub
      rw [if_pos hreq]
      simp only [List.head?_cons]
      by_cases hw : (0 : ℚ) < 60 - (clock 0 - r0) + 1 / 10
      · rw [if_pos hw]
        refine ⟨_, _, _, _, rfl, htok, ?_, ?_⟩
        · exact (List.dropWhile_sublist _).trans hreqsub
        · refine sleeps_bound_aux _ _ _ ?_ ?_ ?_
          · intro w hw'
            rw [List.mem_singleton.mp hw']
          · intro w hw'
            split at hw'
            · split at hw'
              · split at hw'
                · rw [List.mem_singleton.mp hw']
                  exact min_le_right _ _
                · cases hw'
              · cases hw'
            · cases hw'
          · intro w hw'
            split at hw'
            · split at hw'
              · rw [List.mem_singleton.mp hw']
              · cases hw'
            · cases hw'
      · rw [if_neg hw]
        refine ⟨_, _, _, _, rfl, htok, hreqsub, ?_⟩
        refine sleeps_bound_aux _ _ _ mem_nil_elim ?_ ?_
        · intro w hw'
          split at hw'
          · split at hw'
            · split at hw'
              · rw [List.mem_singleton.mp hw']
                exact min_le_right _ _
              · cases hw'
            · cases hw'
          · cases hw'
        · intro w hw'
          split at hw'
          · split at hw'
            · rw [List.mem_singleton.mp hw']
            · cases hw'
          · cases hw'
  · rw [if_neg hreq]
    refine ⟨_, _, _, _, rfl, htok, hreqsub, ?_⟩
    refine sleeps_bound_aux _ _ _ mem_nil_elim ?_ ?_
    · intro w hw'
      split at hw'
      · split at hw'
        · split at hw'
          · rw [List.mem_singleton.mp hw']
            exact min_le_right _ _
          · cases hw'
        · cases hw'
      · cases hw'
    · intro w hw'
      split at hw'
      · split at hw'
        · rw [List.mem_singleton.mp hw']
        · cases hw'
      · cases hw'

theorem C8_reservation_witness :
    1 ≤ defaultRLConfig.requests_per_minute ∧
    ∃ sleeps tok_pre req_pre t_end,
      wait_for_capacity defaultRLConfig ⟨[], []⟩ (fun _ => 0) 100 =
        some (sleeps, ⟨tok_pre ++ [(t_end, (100 : ℚ))], req_pre ++ [t_end]⟩) ∧
      tok_pre.Sublist ([] : List (ℚ × ℚ)) ∧
      req_pre.Sublist ([] : List ℚ) ∧
      ∀ w ∈ sleeps, w.1 = SleepKind.tpmWait → w.2 ≤ 5 :=
  ⟨by decide, C8_reservation defaultRLConfig ⟨[], []⟩ (fun _ => 0) 100 (by decide)⟩

/-- **C4**: the embedding accessor's contract. (1) A record that already
stores a vector is returned unchanged with no provider call — so in
particular one holding a vector of the expected dimension is. (2) When the
record has no vector and the cleaned text is empty after stripping
whitespace, `None` is returned and the provider is not called. (3) When the
record has no vector and the provider fails (a `None` result, or an
exception — caught by the `except` clause, so nothing propagates past this
boundary), `None` is returned and the record is left untouched, its vector
still unset. -/
theorem C4_accessor_contract (provider : EmbedOutcome) (t : EmbTranscript) :
    (∀ v, t.embedding = some v →
      get_or_create_embedding provider t = (some v, t, false)) ∧
    (t.embedding = none →
      String.mk (stripL (match t.cleaned_content with
        | some s => if s = "" then clean_transcript_str t.content else s
        | none => clean_transcript_str t.content).data) = "" →
      get_or_create_embedding provider t = (none, t, false)) ∧
    (t.embedding = none →
      (provider = EmbedOutcome.noneResult ∨ provider = EmbedOutcome.raised) →
      (get_or_create_embedding provider t).1 = none ∧
      (get_or_create_embedding provider t).2.1 = t) := by
  refine ⟨?_, ?_, ?_⟩
  · intro v hv
    simp only [get_or_create_embedding, hv]
  · intro hemb hstrip
    simp only [get_or_create_embedding, hemb]
    rw [if_pos (Or.inr hstrip)]
  · intro hemb hfail
    simp only [get_or_create_embedding, hemb]
    by_cases hc : (match t.cleaned_content with
        | some s => if s = "" then clean_transcript_str t.content else s
        | none => clean_transcript_str t.content) = "" ∨
        String.mk (stripL (match t.cleaned_content with
        | some s => if s = "" then clean_transcript_str t.content else s
        | none => clean_transcript_str t.content).data) = ""
    · rw [if_pos hc]
      exact ⟨rfl, rfl⟩
    · rw [if_neg hc]
      rcases hfail with rfl | rfl
      · exact ⟨rfl, rfl⟩
      · exact ⟨rfl, rfl⟩

theorem C4_accessor_contract_witness :
    (get_or_create_embedding EmbedOutcome.raised
        ⟨"a.txt", "", some "hola", none⟩).1 = none ∧
    (get_or_create_embedding EmbedOutcome.raised
        ⟨"a.txt", "", some "hola", none⟩).2.1 =
      ⟨"a.txt", "", some "hola", none⟩ :=
  (C4_accessor_contract EmbedOutcome.raised
    ⟨"a.txt", "", some "hola", none⟩).2.2 rfl (Or.inr rfl)

/-- **C3**: the claim says a chunk that exhausts its retry budget yields
`None` placeholders and the batch continues. The code does append the
placeholders on the last attempt, but then unconditionally re-raises
(`raise` at line 221 of `langchain_service.py`), discarding the local list
and aborting the whole batch: for `texts = ["hola"]`, `max_retries = 3` and
a provider that rate-limits every attempt, `get_embeddings_batch` ends in
the raised exception rather than returning `[None]`. -/
theorem C3_retry_exhaustion_aborts :
    get_embeddings_batch (fun _ _ => ChunkOutcome.rateLimited) ["hola"] 3 =
      Except.error () := rfl

end Entel
